import Mathlib

/-!
Shallow embedding of the SimInf SSA solver core
(src/solvers/SimInf_solver.c and src/solvers/ssa/SimInf_solver_ssa.c).

Modelling conventions:
* C `int` values are Lean `Int`; C `double` values are Lean `ℚ` (exact
  arithmetic; the floating-point grid is not modelled).
* Flat C arrays accessed through pointers are total functions (`Int → Int`
  for the shared compartment vector `uu`, `Nat → Nat` / `Nat → Int` for the
  CSC index arrays); an out-of-range C access is modelled by the value the
  total function happens to give there.
* The GSL random number generator is modelled by oracles handed to each
  function: `hyp` stands for `gsl_ran_hypergeometric` and `unif` for the
  stream of `gsl_rng_uniform_pos` draws.  Theorems assume only the
  documented contracts of those primitives.
-/

namespace SimInf

/-! ### Error codes and event kinds

Modelled from the spec: the numeric error-code values live in `SimInf.h`,
which is not part of the sources; only that they are distinct and nonzero
is used (a zero return means success throughout the C code). -/

def SIMINF_ERR_NEGATIVE_STATE : Int := -1

def SIMINF_ERR_ALLOC_MEMORY_BUFFER : Int := -2

def SIMINF_UNDEFINED_EVENT : Int := -4

def SIMINF_ERR_SAMPLE_SELECT : Int := -5

def SIMINF_ERR_INVALID_RATE : Int := -6

def EXIT_EVENT : Int := 0

def ENTER_EVENT : Int := 1

def INTERNAL_TRANSFER_EVENT : Int := 2

def EXTERNAL_TRANSFER_EVENT : Int := 3

/-- C `round`: nearest integer, ties rounded away from zero. -/
def cround (q : ℚ) : Int :=
  if q < 0 then -⌊-q + 1/2⌋ else ⌊q + 1/2⌋

/-- The positions `jc k ≤ j < jc (k+1)` making up column `k` of a CSC
matrix (the loop bounds `for (i = jc[k]; i < jc[k+1]; i++)`). -/
def colIdx (jc : Nat → Nat) (k : Nat) : List Nat :=
  (List.range (jc (k+1) - jc k)).map (fun m => jc k + m)

/-- The compartments listed in column `s` of the select matrix `E`. -/
def selectCol (irE jcE : Nat → Nat) (s : Nat) : List Nat :=
  (colIdx jcE s).map irE

/-- Reading `u[node * Nc + c]`. -/
def uAt (u : Int → Int) (Nc node c : Nat) : Int :=
  u ((node * Nc + c : Nat) : Int)

/-! ### The sampler `SimInf_sample_select` (SimInf_solver.c lines 56-146) -/

/-- Lines 78-81 of SimInf_solver.c: `if (n == 0) n = round(proportion *
Nindividuals);` — the count actually sampled. -/
def sampleCount (n : Int) (proportion : ℚ) (Nindividuals : Int) : Int :=
  if n = 0 then cround (proportion * (Nindividuals : ℚ)) else n

/-- The compartment search of the urn draw (SimInf_solver.c lines 132-134):
`for (i = jcE[select], cum = u_tmp[irE[i]]; i < jcE[select+1] && rand > cum;
i++, cum += u_tmp[irE[i]]);`.  `fuel` maintains `jcE[select+1] - i`. -/
def pickLoop (u_tmp : Nat → Int) (irE : Nat → Nat) (rand : ℚ) :
    Nat → Nat → ℚ → Nat
  | 0, i, _ => i
  | fuel+1, i, cum =>
      if cum < rand then
        pickLoop u_tmp irE rand fuel (i+1) (cum + ((u_tmp (irE (i+1)) : Int) : ℚ))
      else i

/-- The sequential urn draw (SimInf_solver.c lines 126-142): while `n > 0`,
draw `rand = uniform_pos * Nindividuals`, locate the compartment by
`pickLoop`, decrement the scratch copy and increment `individuals`.  The
loop count is the fuel; `d` indexes the `unif` oracle. -/
def urnLoop (irE : Nat → Nat) (jB jE : Nat) (unif : Nat → ℚ) :
    Nat → Int → (Nat → Int) → (Nat → Int) → Nat → (Nat → Int)
  | 0, _, _, ind, _ => ind
  | m+1, N, ut, ind, d =>
      let rand := unif d * (N : ℚ)
      let i := pickLoop ut irE rand (jE - jB) jB ((ut (irE jB) : Int) : ℚ)
      let c := irE i
      urnLoop irE jB jE unif m (N - 1)
        (Function.update ut c (ut c - 1))
        (Function.update ind c (ind c + 1))
        (d+1)

/-- `SimInf_sample_select` (SimInf_solver.c lines 56-146).  Returns the
`individuals` vector together with the C return code (`0` on success). -/
def SimInf_sample_select (irE jcE : Nat → Nat) (Nc : Nat) (u : Int → Int)
    (node select : Nat) (n : Int) (proportion : ℚ)
    (hyp : Int → Int → Int → Int) (unif : Nat → ℚ) : (Nat → Int) × Int :=
  let x : Nat → Int := uAt u Nc node
  let col := selectCol irE jcE select
  let Nkinds : Nat := col.countP (fun c => decide (0 < x c))
  let Nindividuals : Int := (col.map x).sum
  let Nstates : Int := (jcE (select + 1) : Int) - (jcE select : Int)
  let n1 : Int := sampleCount n proportion Nindividuals
  if Nstates ≤ 0 ∨ Nindividuals < n1 ∨ n1 < 0 then
    (fun _ => 0, SIMINF_ERR_SAMPLE_SELECT)
  else if n1 = 0 then
    (fun _ => 0, 0)
  else if Nindividuals = n1 then
    (col.foldl (fun ind c => Function.update ind c (x c)) (fun _ => 0), 0)
  else if Nstates = 1 then
    (Function.update (fun _ => 0) (irE (jcE select)) n1, 0)
  else if Nkinds = 1 then
    (match col.find? (fun c => decide (0 < x c)) with
     | some c => Function.update (fun _ => 0) c n1
     | none => fun _ => 0, 0)
  else if Nstates = 2 then
    let a := irE (jcE select)
    let b := irE (jcE select + 1)
    let h := hyp (x a) (x b) n1
    let ind1 := Function.update (fun _ => 0) a h
    (Function.update ind1 b (n1 - ind1 a), 0)
  else
    (urnLoop irE (jcE select) (jcE (select + 1)) unif n1.toNat Nindividuals
      x (fun _ => 0) 0, 0)

/-! ### List and update helper lemmas -/

theorem foldl_update_apply (x : Nat → Int) :
    ∀ (l : List Nat) (g0 : Nat → Int) (c : Nat),
      (l.foldl (fun g c' => Function.update g c' (x c')) g0) c
        = if c ∈ l then x c else g0 c := by
  intro l
  induction l with
  | nil => intro g0 c; simp
  | cons a t ih =>
      intro g0 c
      simp only [List.foldl_cons, ih, List.mem_cons]
      by_cases hct : c ∈ t
      · simp [hct]
      · by_cases hca : c = a
        · subst hca; simp [hct]
        · simp [hct, hca, Function.update_noteq hca]

theorem map_update_sum :
    ∀ (l : List Nat), l.Nodup → ∀ (c : Nat), c ∈ l → ∀ (f : Nat → Int) (v : Int),
      (l.map (Function.update f c v)).sum = (l.map f).sum + v - f c := by
  intro l
  induction l with
  | nil => intro _ c hc; exact absurd hc (List.not_mem_nil c)
  | cons a t ih =>
      intro hnd c hc f v
      rcases List.nodup_cons.mp hnd with ⟨hat, hndt⟩
      rcases List.mem_cons.mp hc with hca | hct
      · subst hca
        have ht : t.map (Function.update f c v) = t.map f := by
          refine List.map_congr_left fun b hb => ?_
          refine Function.update_noteq ?_ _ _
          rintro rfl
          exact hat hb
        simp only [List.map_cons, List.sum_cons, ht, Function.update_same]
        omega
      · have hca : c ≠ a := fun h => hat (h ▸ hct)
        simp only [List.map_cons, List.sum_cons,
          Function.update_noteq (Ne.symm hca), ih hndt c hct f v]
        omega

theorem sum_map_single (l : List Nat) (hnd : l.Nodup) (c : Nat) (hc : c ∈ l)
    (v : Int) :
    (l.map (Function.update (fun _ => (0 : Int)) c v)).sum = v := by
  rw [map_update_sum l hnd c hc]
  simp

theorem range_map_sum_succ {M : Type*} [AddCommMonoid M] (l : Nat) (g : Nat → M) :
    ((List.range (l+1)).map g).sum
      = g 0 + ((List.range l).map (fun m => g (m+1))).sum := by
  rw [List.range_succ_eq_map]
  simp [List.map_map, Function.comp_def, Nat.succ_eq_add_one]

/-- The select column written with explicit CSC loop bounds. -/
def rangeCol (irE : Nat → Nat) (jB jE : Nat) : List Nat :=
  (List.range (jE - jB)).map (fun k => irE (jB + k))

theorem selectCol_eq_rangeCol (irE jcE : Nat → Nat) (s : Nat) :
    selectCol irE jcE s = rangeCol irE (jcE s) (jcE (s+1)) := by
  simp [selectCol, colIdx, rangeCol, List.map_map, Function.comp_def]

theorem selectCol_len_one (irE jcE : Nat → Nat) (s : Nat)
    (h : jcE (s+1) - jcE s = 1) :
    selectCol irE jcE s = [irE (jcE s)] := by
  have h1 : List.range 1 = [0] := by decide
  simp [selectCol, colIdx, h, h1]

theorem selectCol_len_two (irE jcE : Nat → Nat) (s : Nat)
    (h : jcE (s+1) - jcE s = 2) :
    selectCol irE jcE s = [irE (jcE s), irE (jcE s + 1)] := by
  have h2 : List.range 2 = [0, 1] := by decide
  simp [selectCol, colIdx, h, h2]

/-! ### Correctness of the urn draw -/

/-- The compartment search stops inside the column and lands on a
compartment with a nonzero scratch count, provided `rand` is positive and
bounded by the cumulative total. -/
theorem pickLoop_spec (ut : Nat → Int) (irE : Nat → Nat) (rand : ℚ) :
    ∀ (fuel i : Nat) (cum : ℚ),
      (rand ≤ cum → 0 < ut (irE i)) →
      rand ≤ cum + ((List.range (fuel - 1)).map
          (fun m => ((ut (irE (i+1+m)) : Int) : ℚ))).sum →
      i ≤ pickLoop ut irE rand fuel i cum ∧
      pickLoop ut irE rand fuel i cum ≤ i + (fuel - 1) ∧
      0 < ut (irE (pickLoop ut irE rand fuel i cum)) := by
  intro fuel
  induction fuel with
  | zero =>
      intro i cum hstart htot
      have hc : rand ≤ cum := by simpa using htot
      exact ⟨le_refl i, by simp [pickLoop], by simpa [pickLoop] using hstart hc⟩
  | succ f ih =>
      intro i cum hstart htot
      by_cases hlt : cum < rand
      · rcases Nat.eq_zero_or_pos f with hf | hf
        · subst hf
          have hc : rand ≤ cum := by simpa using htot
          exact absurd hc (not_le.mpr hlt)
        · obtain ⟨g, rfl⟩ :=
            Nat.exists_eq_succ_of_ne_zero (Nat.pos_iff_ne_zero.mp hf)
          have hdec : ((List.range (g+1)).map
              (fun m => ((ut (irE (i+1+m)) : Int) : ℚ))).sum
              = ((ut (irE (i+1)) : Int) : ℚ)
                + ((List.range g).map
                    (fun m => ((ut (irE (i+1+1+m)) : Int) : ℚ))).sum := by
            rw [range_map_sum_succ]
            congr 1
            refine congrArg _ (List.map_congr_left fun m _ => ?_)
            have h : i+1+(m+1) = i+1+1+m := by omega
            rw [h]
          have hstart' : rand ≤ cum + ((ut (irE (i+1)) : Int) : ℚ) →
              0 < ut (irE (i+1)) := by
            intro hle
            have : (0 : ℚ) < ((ut (irE (i+1)) : Int) : ℚ) := by linarith
            exact_mod_cast this
          have htot2 : rand ≤ cum + ((List.range (g+1)).map
              (fun m => ((ut (irE (i+1+m)) : Int) : ℚ))).sum := by
            simpa using htot
          rw [hdec] at htot2
          have htot' : rand ≤ (cum + ((ut (irE (i+1)) : Int) : ℚ))
              + ((List.range g).map
                  (fun m => ((ut (irE (i+1+1+m)) : Int) : ℚ))).sum := by
            linarith
          obtain ⟨h1, h2, h3⟩ := ih (i+1) (cum + ((ut (irE (i+1)) : Int) : ℚ))
            hstart' htot'
          refine ⟨?_, ?_, ?_⟩
          · simpa [pickLoop, hlt] using le_trans (Nat.le_succ i) h1
          · simpa [pickLoop, hlt, Nat.add_sub_cancel] using le_trans h2 (by omega)
          · simpa [pickLoop, hlt] using h3
      · refine ⟨?_, ?_, ?_⟩
        · simp [pickLoop, hlt]
        · simp [pickLoop, hlt]
        · simpa [pickLoop, hlt] using hstart (le_of_not_lt hlt)

/-- Invariants of the sequential urn draw: off-column slots never move,
every column slot only grows and by at most its scratch count, and each
iteration adds exactly one sampled individual. -/
theorem urnLoop_spec (irE : Nat → Nat) (jB jE : Nat) (unif : Nat → ℚ)
    (hunif : ∀ d, 0 < unif d ∧ unif d < 1)
    (hlen : jB < jE)
    (hnd : (rangeCol irE jB jE).Nodup) :
    ∀ (m : Nat) (N : Int) (ut ind : Nat → Int) (d : Nat),
      (m : Int) ≤ N →
      ((rangeCol irE jB jE).map ut).sum = N →
      (∀ c ∈ rangeCol irE jB jE, 0 ≤ ut c) →
      (∀ c, c ∉ rangeCol irE jB jE →
          urnLoop irE jB jE unif m N ut ind d c = ind c) ∧
      (∀ c ∈ rangeCol irE jB jE,
          ind c ≤ urnLoop irE jB jE unif m N ut ind d c ∧
          urnLoop irE jB jE unif m N ut ind d c - ind c ≤ ut c) ∧
      ((rangeCol irE jB jE).map (urnLoop irE jB jE unif m N ut ind d)).sum
        = ((rangeCol irE jB jE).map ind).sum + m := by
  intro m
  induction m with
  | zero =>
      intro N ut ind d _ _ hnn
      refine ⟨fun c _ => rfl, fun c hc => ⟨le_refl _, ?_⟩, by simp [urnLoop]⟩
      simp only [urnLoop]
      have := hnn c hc
      omega
  | succ m ih =>
      intro N ut ind d hmN hsum hnn
      have hmN' : ((m : Int) + 1) ≤ N := by exact_mod_cast hmN
      have hN1 : (1 : Int) ≤ N := by omega
      have hNq : (0 : ℚ) < (N : ℚ) := by exact_mod_cast lt_of_lt_of_le one_pos hN1
      set rand := unif d * (N : ℚ) with hrand_def
      have hrand0 : 0 < rand := mul_pos (hunif d).1 hNq
      have hrandN : rand < (N : ℚ) := (mul_lt_iff_lt_one_left hNq).mpr (hunif d).2
      -- the cumulative total of the column equals N
      obtain ⟨g, hg⟩ := Nat.exists_eq_succ_of_ne_zero
        (Nat.sub_ne_zero_of_lt hlen)
      have hcolsum : ((ut (irE jB) : Int) : ℚ)
          + ((List.range ((jE - jB) - 1)).map
              (fun k => ((ut (irE (jB+1+k)) : Int) : ℚ))).sum = (N : ℚ) := by
        have h1 : (((rangeCol irE jB jE).map ut).sum : ℚ) = (N : ℚ) := by
          exact_mod_cast congrArg (fun z : Int => (z : ℚ)) hsum
        rw [Int.cast_list_sum] at h1
        simp only [rangeCol, List.map_map, Function.comp_def] at h1
        rw [hg, range_map_sum_succ] at h1
        simp only [Nat.add_zero] at h1
        rw [hg]
        simp only [Nat.succ_sub_one]
        calc ((ut (irE jB) : Int) : ℚ)
            + ((List.range g).map
                (fun k => ((ut (irE (jB+1+k)) : Int) : ℚ))).sum
            = ((ut (irE (jB+0)) : Int) : ℚ)
            + ((List.range g).map
                (fun k => ((ut (irE (jB+(k+1))) : Int) : ℚ))).sum := by
              congr 1
              refine congrArg _ (List.map_congr_left fun k _ => ?_)
              have h : jB+1+k = jB+(k+1) := by omega
              rw [h]
          _ = (N : ℚ) := h1
      have hpick := pickLoop_spec ut irE rand (jE - jB) jB
        ((ut (irE jB) : Int) : ℚ)
        (by
          intro hle
          have : (0 : ℚ) < ((ut (irE jB) : Int) : ℚ) := lt_of_lt_of_le hrand0 hle
          exact_mod_cast this)
        (by rw [hcolsum]; exact le_of_lt hrandN)
      set i0 := pickLoop ut irE rand (jE - jB) jB ((ut (irE jB) : Int) : ℚ)
        with hi0
      obtain ⟨hge, hle, hpos⟩ := hpick
      have hmem : irE i0 ∈ rangeCol irE jB jE := by
        rw [rangeCol]
        refine List.mem_map.mpr ⟨i0 - jB, List.mem_range.mpr (by omega), ?_⟩
        congr 1
        omega
      -- one urn iteration unfolded
      have hstep : urnLoop irE jB jE unif (m+1) N ut ind d
          = urnLoop irE jB jE unif m (N - 1)
              (Function.update ut (irE i0) (ut (irE i0) - 1))
              (Function.update ind (irE i0) (ind (irE i0) + 1)) (d+1) := by
        simp only [urnLoop]
      have hsum' : ((rangeCol irE jB jE).map
          (Function.update ut (irE i0) (ut (irE i0) - 1))).sum = N - 1 := by
        rw [map_update_sum _ hnd _ hmem, hsum]
        omega
      have hnn' : ∀ c ∈ rangeCol irE jB jE,
          0 ≤ Function.update ut (irE i0) (ut (irE i0) - 1) c := by
        intro c hc
        by_cases hcc : c = irE i0
        · subst hcc; rw [Function.update_same]; omega
        · rw [Function.update_noteq hcc]; exact hnn c hc
      obtain ⟨A', B', C'⟩ := ih (N - 1)
        (Function.update ut (irE i0) (ut (irE i0) - 1))
        (Function.update ind (irE i0) (ind (irE i0) + 1)) (d+1)
        (by omega) hsum' hnn'
      refine ⟨?_, ?_, ?_⟩
      · intro c hc
        rw [hstep, A' c hc,
          Function.update_noteq (show c ≠ irE i0 by rintro rfl; exact hc hmem)]
      · intro c hc
        rw [hstep]
        obtain ⟨hb1, hb2⟩ := B' c hc
        by_cases hcc : c = irE i0
        · subst hcc
          rw [Function.update_same] at hb1
          rw [Function.update_same, Function.update_same] at hb2
          omega
        · rw [Function.update_noteq hcc] at hb1
          rw [Function.update_noteq hcc, Function.update_noteq hcc] at hb2
          omega
      · rw [hstep, C', map_update_sum _ hnd _ hmem]
        push_cast
        omega

/-! ### The sampler output contract -/

/-- Master specification of `SimInf_sample_select` on the success path:
unlisted compartments are untouched, listed compartments receive between
`0` and their current count, and the sampled counts add up to the requested
total.  The hypotheses are the documented GSL contracts of the two random
primitives and duplicate-freeness of the CSC column. -/
theorem sample_select_spec
    (irE jcE : Nat → Nat) (Nc : Nat) (u : Int → Int) (node select : Nat)
    (n : Int) (p : ℚ) (hyp : Int → Int → Int → Int) (unif : Nat → ℚ)
    (hnd : (selectCol irE jcE select).Nodup)
    (hu : ∀ c ∈ selectCol irE jcE select, 0 ≤ uAt u Nc node c)
    (hhyp : ∀ a b t : Int, 0 ≤ a → 0 ≤ b → 0 ≤ t → t ≤ a + b →
      0 ≤ hyp a b t ∧ hyp a b t ≤ a ∧ hyp a b t ≤ t ∧ t - b ≤ hyp a b t)
    (hunif : ∀ d, 0 < unif d ∧ unif d < 1)
    (hok : (SimInf_sample_select irE jcE Nc u node select n p hyp unif).2 = 0) :
    (∀ c, c ∉ selectCol irE jcE select →
      (SimInf_sample_select irE jcE Nc u node select n p hyp unif).1 c = 0) ∧
    (∀ c ∈ selectCol irE jcE select,
      0 ≤ (SimInf_sample_select irE jcE Nc u node select n p hyp unif).1 c ∧
      (SimInf_sample_select irE jcE Nc u node select n p hyp unif).1 c
        ≤ uAt u Nc node c) ∧
    (((selectCol irE jcE select).map
        (SimInf_sample_select irE jcE Nc u node select n p hyp unif).1).sum
      = sampleCount n p
          (((selectCol irE jcE select).map (uAt u Nc node)).sum)) := by
  simp only [SimInf_sample_select] at hok ⊢
  set x := uAt u Nc node with hx
  set col := selectCol irE jcE select with hcol
  set X := (col.map x).sum with hX
  set n1 := sampleCount n p X with hn1
  split_ifs at hok ⊢ with herr hzero hall hone hkinds htwo
  · -- error branch contradicts hok
    exact absurd hok (by norm_num [SIMINF_ERR_SAMPLE_SELECT])
  · -- n1 = 0
    refine ⟨fun c _ => rfl, fun c hc => ?_, ?_⟩
    · exact ⟨le_refl 0, hu c hc⟩
    · simp [hzero]
  · -- X = n1 : every listed individual is included
    refine ⟨?_, ?_, ?_⟩
    · intro c hc
      simp only [foldl_update_apply]
      simp [hc]
    · intro c hc
      simp only [foldl_update_apply, if_pos hc]
      exact ⟨hu c hc, le_refl _⟩
    · simp only []
      rw [List.map_congr_left (g := x)
        (fun c hc => by rw [foldl_update_apply]; simp [hc])]
      rw [← hX, hall]
  · -- Nstates = 1
    push_neg at herr
    have hlen : jcE (select+1) - jcE select = 1 := by omega
    have hc1 : col = [irE (jcE select)] := selectCol_len_one irE jcE select hlen
    have h0n : 0 ≤ n1 := herr.2.2
    have hnX : n1 ≤ X := herr.2.1
    have hXx : X = x (irE (jcE select)) := by rw [hX, hc1]; simp
    refine ⟨?_, ?_, ?_⟩
    · intro c hc
      rw [hc1, List.mem_singleton] at hc
      simp only [Function.update_noteq hc]
    · intro c hc
      rw [hc1, List.mem_singleton] at hc
      subst hc
      simp only [Function.update_same]
      exact ⟨h0n, by omega⟩
    · rw [hc1]
      simp only [List.map_cons, List.map_nil, List.sum_cons, List.sum_nil,
        Function.update_same]
      omega
  · -- Nkinds = 1 : a single listed compartment holds individuals
    push_neg at herr
    have h0n : 0 ≤ n1 := herr.2.2
    have hnX : n1 ≤ X := herr.2.1
    obtain ⟨a, ha⟩ := List.length_eq_one.mp
      ((List.countP_eq_length_filter _ _).symm.trans hkinds)
    have honly : ∀ c ∈ col, 0 < x c → c = a := by
      intro c hc hcx
      have : c ∈ col.filter (fun c => decide (0 < x c)) :=
        List.mem_filter.mpr ⟨hc, by simpa using hcx⟩
      rw [ha, List.mem_singleton] at this
      exact this
    rcases hfind : col.find? (fun c => decide (0 < x c)) with _ | cstar
    · -- impossible: the filter is nonempty
      exfalso
      have ha' : a ∈ col.filter (fun c => decide (0 < x c)) := by
        rw [ha]; exact List.mem_singleton.mpr rfl
      have hmem := (List.mem_filter.mp ha').1
      have hpa := (List.mem_filter.mp ha').2
      exact absurd hpa (by simpa using (List.find?_eq_none.mp hfind) a hmem)
    · have hcs_mem : cstar ∈ col := List.mem_of_find?_eq_some hfind
      have hcs_pos : 0 < x cstar := by
        simpa using List.find?_some hfind
      have hzero_other : ∀ c ∈ col, c ≠ cstar → x c = 0 := by
        intro c hc hne
        rcases lt_or_eq_of_le (hu c hc) with hlt | heq
        · exact absurd ((honly c hc hlt).trans (honly cstar hcs_mem hcs_pos).symm) hne
        · omega
      have hXx : X = x cstar := by
        rw [hX, List.map_congr_left (g :=
            Function.update (fun _ => (0 : Int)) cstar (x cstar)) ?_]
        · exact sum_map_single col hnd cstar hcs_mem _
        · intro c hc
          by_cases hcc : c = cstar
          · subst hcc; rw [Function.update_same]
          · rw [Function.update_noteq hcc]
            exact hzero_other c hc hcc
      refine ⟨?_, ?_, ?_⟩
      · intro c hc
        have hne : c ≠ cstar := by rintro rfl; exact hc hcs_mem
        simp only [Function.update_noteq hne]
      · intro c hc
        by_cases hcc : c = cstar
        · subst hcc
          simp only [Function.update_same]
          exact ⟨h0n, by omega⟩
        · simp only [Function.update_noteq hcc]
          exact ⟨le_refl _, hu c hc⟩
      · exact sum_map_single col hnd cstar hcs_mem n1
  · -- Nstates = 2 : hypergeometric split between the two compartments
    push_neg at herr
    have h0n : 0 ≤ n1 := herr.2.2
    have hnX : n1 ≤ X := herr.2.1
    have hlen : jcE (select+1) - jcE select = 2 := by omega
    have hc2 : col = [irE (jcE select), irE (jcE select + 1)] :=
      selectCol_len_two irE jcE select hlen
    have hab : irE (jcE select) ≠ irE (jcE select + 1) := by
      have := hnd
      rw [hc2, List.nodup_cons] at this
      exact fun h => this.1 (by rw [h]; exact List.mem_singleton.mpr rfl)
    have hxa : 0 ≤ x (irE (jcE select)) :=
      hu _ (by rw [hc2]; exact List.mem_cons_self _ _)
    have hxb : 0 ≤ x (irE (jcE select + 1)) :=
      hu _ (by rw [hc2]; exact List.mem_cons.mpr (Or.inr (List.mem_singleton.mpr rfl)))
    have hXab : X = x (irE (jcE select)) + x (irE (jcE select + 1)) := by
      rw [hX, hc2]; simp
    obtain ⟨hh0, hha, hht, hhb⟩ :=
      hhyp (x (irE (jcE select))) (x (irE (jcE select + 1))) n1 hxa hxb h0n
        (by omega)
    simp only [Function.update_same]
    refine ⟨?_, ?_, ?_⟩
    · intro c hc
      rw [hc2, List.mem_cons, List.mem_singleton] at hc
      push_neg at hc
      rw [Function.update_noteq hc.2, Function.update_noteq hc.1]
    · intro c hc
      rw [hc2, List.mem_cons, List.mem_singleton] at hc
      rcases hc with hca | hcb
      · subst hca
        rw [Function.update_noteq hab, Function.update_same]
        exact ⟨hh0, hha⟩
      · subst hcb
        rw [Function.update_same]
        exact ⟨by omega, by omega⟩
    · rw [hc2]
      simp only [List.map_cons, List.map_nil, List.sum_cons, List.sum_nil,
        Function.update_noteq hab, Function.update_same]
      omega
  · -- urn branch : three or more compartments
    push_neg at herr
    have h0n : 0 ≤ n1 := herr.2.2
    have hnX : n1 ≤ X := herr.2.1
    have hlen : jcE select < jcE (select+1) := by omega
    have hcolr : col = rangeCol irE (jcE select) (jcE (select+1)) := by
      rw [hcol, selectCol_eq_rangeCol]
    obtain ⟨A', B', C'⟩ := urnLoop_spec irE (jcE select) (jcE (select+1)) unif
      hunif hlen (hcolr ▸ hnd) n1.toNat X x (fun _ => 0) 0
      (by rw [Int.toNat_of_nonneg h0n]; exact hnX)
      (by rw [← hcolr, ← hX])
      (by rw [← hcolr]; exact hu)
    simp only []
    refine ⟨?_, ?_, ?_⟩
    · intro c hc
      exact A' c (by rw [← hcolr]; exact hc)
    · intro c hc
      obtain ⟨hb1, hb2⟩ := B' c (by rw [← hcolr]; exact hc)
      exact ⟨hb1, by omega⟩
    · have := C'
      rw [← hcolr] at this
      rw [this, Int.toNat_of_nonneg h0n]
      simp

/-- C2: every call of `SimInf_sample_select` that returns 0 produces an
`individuals` vector that is zero outside the compartments listed in the
select column, lies between `0` and `u[node*Nc + c]` on every listed
compartment `c`, and sums to the actual sample count over the listed
compartments. -/
theorem sample_select_output_contract
    (irE jcE : Nat → Nat) (Nc : Nat) (u : Int → Int) (node select : Nat)
    (n : Int) (p : ℚ) (hyp : Int → Int → Int → Int) (unif : Nat → ℚ)
    (hnd : (selectCol irE jcE select).Nodup)
    (hu : ∀ c ∈ selectCol irE jcE select, 0 ≤ uAt u Nc node c)
    (hhyp : ∀ a b t : Int, 0 ≤ a → 0 ≤ b → 0 ≤ t → t ≤ a + b →
      0 ≤ hyp a b t ∧ hyp a b t ≤ a ∧ hyp a b t ≤ t ∧ t - b ≤ hyp a b t)
    (hunif : ∀ d, 0 < unif d ∧ unif d < 1)
    (hok : (SimInf_sample_select irE jcE Nc u node select n p hyp unif).2 = 0) :
    (∀ c, c ∉ selectCol irE jcE select →
      (SimInf_sample_select irE jcE Nc u node select n p hyp unif).1 c = 0) ∧
    (∀ c ∈ selectCol irE jcE select,
      0 ≤ (SimInf_sample_select irE jcE Nc u node select n p hyp unif).1 c ∧
      (SimInf_sample_select irE jcE Nc u node select n p hyp unif).1 c
        ≤ uAt u Nc node c) ∧
    (((selectCol irE jcE select).map
        (SimInf_sample_select irE jcE Nc u node select n p hyp unif).1).sum
      = sampleCount n p
          (((selectCol irE jcE select).map (uAt u Nc node)).sum)) :=
  sample_select_spec irE jcE Nc u node select n p hyp unif hnd hu hhyp hunif hok

/-- Witness for C2 at a two-compartment call (`Nc = 2`, both counts 3,
`n = 2`): the call succeeds and the sampled counts add up to 2. -/
theorem sample_select_output_contract_witness :
    ((SimInf_sample_select (fun k => k) (fun s => 2*s) 2 (fun _ => 3) 0 0 2
        (1/2) (fun a b t => max 0 (min a t)) (fun _ => 1/2)).2 = 0) ∧
    (((selectCol (fun k => k) (fun s => 2*s) 0).map
        (SimInf_sample_select (fun k => k) (fun s => 2*s) 2 (fun _ => 3) 0 0 2
          (1/2) (fun a b t => max 0 (min a t)) (fun _ => 1/2)).1).sum
      = sampleCount 2 (1/2)
          (((selectCol (fun k => k) (fun s => 2*s) 0).map
              (uAt (fun _ => 3) 2 0)).sum)) := by
  have hok : (SimInf_sample_select (fun k => k) (fun s => 2*s) 2 (fun _ => 3)
      0 0 2 (1/2) (fun a b t => max 0 (min a t)) (fun _ => 1/2)).2 = 0 := by
    norm_num [SimInf_sample_select, selectCol, colIdx, sampleCount, uAt,
      List.range_succ]
  refine ⟨hok, ?_⟩
  exact (sample_select_output_contract (fun k => k) (fun s => 2*s) 2
    (fun _ => 3) 0 0 2 (1/2) (fun a b t => max 0 (min a t)) (fun _ => 1/2)
    (by norm_num [selectCol, colIdx, List.range_succ])
    (by intro c _; norm_num [uAt])
    (by intro a b t h1 h2 h3 h4; simp only []; refine ⟨?_, ?_, ?_, ?_⟩ <;> omega)
    (by intro d; norm_num)
    hok).2.2

/-- C3 counterexample: a call with `n = 0`, `proportion = 1` on a single
listed compartment holding 5 individuals succeeds and samples 5
individuals — the literal `n` is not used when `n == 0`; instead
`round(proportion * X)` is. -/
theorem sample_count_substitution_cex :
    ((SimInf_sample_select (fun _ => 0) (fun s => s) 1 (fun _ => 5) 0 0 0 1
        (fun _ _ _ => 0) (fun _ => 1/2)).2 = 0) ∧
    ((SimInf_sample_select (fun _ => 0) (fun s => s) 1 (fun _ => 5) 0 0 0 1
        (fun _ _ _ => 0) (fun _ => 1/2)).1 0 = 5) := by
  norm_num [SimInf_sample_select, selectCol, colIdx, sampleCount, cround, uAt]

/-- C3 amended: on a successful call the number of individuals actually
sampled is `round(proportion * X)` when the input `n` equals 0, and the
literal `n` otherwise. -/
theorem sample_count_substitution_amended
    (irE jcE : Nat → Nat) (Nc : Nat) (u : Int → Int) (node select : Nat)
    (n : Int) (p : ℚ) (hyp : Int → Int → Int → Int) (unif : Nat → ℚ)
    (hnd : (selectCol irE jcE select).Nodup)
    (hu : ∀ c ∈ selectCol irE jcE select, 0 ≤ uAt u Nc node c)
    (hhyp : ∀ a b t : Int, 0 ≤ a → 0 ≤ b → 0 ≤ t → t ≤ a + b →
      0 ≤ hyp a b t ∧ hyp a b t ≤ a ∧ hyp a b t ≤ t ∧ t - b ≤ hyp a b t)
    (hunif : ∀ d, 0 < unif d ∧ unif d < 1)
    (hok : (SimInf_sample_select irE jcE Nc u node select n p hyp unif).2 = 0) :
    ((selectCol irE jcE select).map
        (SimInf_sample_select irE jcE Nc u node select n p hyp unif).1).sum
      = if n = 0 then
          cround (p * ((((selectCol irE jcE select).map (uAt u Nc node)).sum : Int) : ℚ))
        else n := by
  have h := (sample_select_spec irE jcE Nc u node select n p hyp unif
    hnd hu hhyp hunif hok).2.2
  rw [h, sampleCount]

/-- Witness for the amended C3 at the counterexample input: with `n = 0`
and `proportion = 1` over 5 individuals, 5 are sampled. -/
theorem sample_count_substitution_amended_witness :
    ((selectCol (fun _ => 0) (fun s => s) 0).map
        (SimInf_sample_select (fun _ => 0) (fun s => s) 1 (fun _ => 5) 0 0 0 1
          (fun a b t => max 0 (min a t)) (fun _ => 1/2)).1).sum
      = if (0 : Int) = 0 then
          cround (1 * ((((selectCol (fun _ => 0) (fun s => s) 0).map
              (uAt (fun _ => 5) 1 0)).sum : Int) : ℚ))
        else 0 :=
  sample_count_substitution_amended (fun _ => 0) (fun s => s) 1 (fun _ => 5)
    0 0 0 1 (fun a b t => max 0 (min a t)) (fun _ => 1/2)
    (by norm_num [selectCol, colIdx])
    (by intro c _; norm_num [uAt])
    (by intro a b t h1 h2 h3 h4; simp only []; refine ⟨?_, ?_, ?_, ?_⟩ <;> omega)
    (by intro d; norm_num)
    (by norm_num [SimInf_sample_select, selectCol, colIdx, sampleCount,
      cround, uAt])

/-- C7: `SimInf_sample_select` returns `SIMINF_ERR_SAMPLE_SELECT` exactly
when, after substituting `n := round(proportion * X)` for `n == 0`, the
select column is empty, `n` exceeds the available total `X`, or `n` is
negative; in every other case it returns 0. -/
theorem sample_select_error_iff
    (irE jcE : Nat → Nat) (Nc : Nat) (u : Int → Int) (node select : Nat)
    (n : Int) (p : ℚ) (hyp : Int → Int → Int → Int) (unif : Nat → ℚ) :
    ((SimInf_sample_select irE jcE Nc u node select n p hyp unif).2
        = SIMINF_ERR_SAMPLE_SELECT ↔
      ((jcE (select + 1) : Int) - (jcE select : Int) ≤ 0 ∨
       ((selectCol irE jcE select).map (uAt u Nc node)).sum
         < sampleCount n p
             (((selectCol irE jcE select).map (uAt u Nc node)).sum) ∨
       sampleCount n p
           (((selectCol irE jcE select).map (uAt u Nc node)).sum) < 0)) ∧
    (¬ ((jcE (select + 1) : Int) - (jcE select : Int) ≤ 0 ∨
       ((selectCol irE jcE select).map (uAt u Nc node)).sum
         < sampleCount n p
             (((selectCol irE jcE select).map (uAt u Nc node)).sum) ∨
       sampleCount n p
           (((selectCol irE jcE select).map (uAt u Nc node)).sum) < 0) →
      (SimInf_sample_select irE jcE Nc u node select n p hyp unif).2 = 0) := by
  simp only [SimInf_sample_select]
  split_ifs with herr hzero hall hone hkinds htwo
  · exact ⟨iff_of_true rfl herr, fun h => absurd herr h⟩
  · exact ⟨iff_of_false (by norm_num [SIMINF_ERR_SAMPLE_SELECT]) herr,
      fun _ => rfl⟩
  · exact ⟨iff_of_false (by norm_num [SIMINF_ERR_SAMPLE_SELECT]) herr,
      fun _ => rfl⟩
  · exact ⟨iff_of_false (by norm_num [SIMINF_ERR_SAMPLE_SELECT]) herr,
      fun _ => rfl⟩
  · exact ⟨iff_of_false (by norm_num [SIMINF_ERR_SAMPLE_SELECT]) herr,
      fun _ => rfl⟩
  · exact ⟨iff_of_false (by norm_num [SIMINF_ERR_SAMPLE_SELECT]) herr,
      fun _ => rfl⟩
  · exact ⟨iff_of_false (by norm_num [SIMINF_ERR_SAMPLE_SELECT]) herr,
      fun _ => rfl⟩

/-- Witness for C7: an infeasible request (`n = 7` individuals out of 0
available) is rejected with `SIMINF_ERR_SAMPLE_SELECT`, and the feasible
request of the C2 witness is not. -/
theorem sample_select_error_iff_witness :
    (SimInf_sample_select (fun _ => 0) (fun s => s) 1 (fun _ => 0) 0 0 7 1
        (fun _ _ _ => 0) (fun _ => 1/2)).2 = SIMINF_ERR_SAMPLE_SELECT := by
  refine (sample_select_error_iff (fun _ => 0) (fun s => s) 1 (fun _ => 0)
    0 0 7 1 (fun _ _ _ => 0) (fun _ => 1/2)).1.mpr ?_
  norm_num [selectCol, colIdx, sampleCount, uAt]

/-! ### Scheduled events and the E1 / E2 appliers
(SimInf_solver.c lines 423-554) -/

/-- One scheduled event after `SimInf_split_events` has converted the
one-based host indices to zero-based.  `shift` may legitimately be `-1`,
the "no shift" sentinel. -/
structure ScheduledEvent where
  event : Int
  time : Int
  node : Nat
  dest : Nat
  n : Int
  proportion : ℚ
  select : Nat
  shift : Int

/-- The mutable state threaded through an event-processing loop: the
shared compartment array `uu`, the `update_node` flags, the thread's
`errcode` and the queue index (`E1_index` resp. `E2_index`). -/
structure EventState where
  uu : Int → Int
  update_node : Nat → Int
  errcode : Int
  idx : Nat

/-- The EXIT loop of `SimInf_process_E1_events` (SimInf_solver.c lines
456-466): remove the sampled individuals compartment by compartment,
breaking at the first negative result. -/
def exitApply (indiv : Nat → Int) (base : Int) :
    List Nat → (Int → Int) → (Int → Int) × Int
  | [], uu => (uu, 0)
  | jj :: rest, uu =>
      let kk : Int := base + jj
      let uu' := Function.update uu kk (uu kk - indiv jj)
      if uu' kk < 0 then (uu', SIMINF_ERR_NEGATIVE_STATE)
      else exitApply indiv base rest uu'

/-- The INTERNAL_TRANSFER loop of `SimInf_process_E1_events`
(SimInf_solver.c lines 470-489): move the sampled individuals to the
shifted compartments, breaking at the first negative result. -/
def internalApply (indiv : Nat → Int) (base : Int) (Nmat : Int → Int)
    (Nc : Nat) (shift : Int) :
    List Nat → (Int → Int) → (Int → Int) × Int
  | [], uu => (uu, 0)
  | jj :: rest, uu =>
      let kk : Int := base + jj
      let ll : Int := Nmat (shift * Nc + jj)
      let uu1 := Function.update uu (kk + ll) (uu (kk + ll) + indiv jj)
      if uu1 (kk + ll) < 0 then (uu1, SIMINF_ERR_NEGATIVE_STATE)
      else
        let uu2 := Function.update uu1 kk (uu1 kk - indiv jj)
        if uu2 kk < 0 then (uu2, SIMINF_ERR_NEGATIVE_STATE)
        else internalApply indiv base Nmat Nc shift rest uu2

/-- The transfer loop of `SimInf_process_E2_events` (SimInf_solver.c lines
522-545): add each sampled count to the (possibly shifted) destination
slot and remove it from the source slot, breaking at the first negative
result. -/
def e2Apply (indiv : Nat → Int) (node dest : Nat) (Nmat : Int → Int)
    (Nc : Nat) (shift : Int) :
    List Nat → (Int → Int) → (Int → Int) × Int
  | [], uu => (uu, 0)
  | jj :: rest, uu =>
      let k1 : Int := ((dest * Nc + jj : Nat) : Int)
      let k2 : Int := ((node * Nc + jj : Nat) : Int)
      let ll : Int := if shift < 0 then 0 else Nmat (shift * Nc + jj)
      let uu1 := Function.update uu (k1 + ll) (uu (k1 + ll) + indiv jj)
      if uu1 (k1 + ll) < 0 then (uu1, SIMINF_ERR_NEGATIVE_STATE)
      else
        let uu2 := Function.update uu1 k2 (uu1 k2 - indiv jj)
        if uu2 k2 < 0 then (uu2, SIMINF_ERR_NEGATIVE_STATE)
        else e2Apply indiv node dest Nmat Nc shift rest uu2

/-- The body of the E1 while-loop (SimInf_solver.c lines 432-495) for a
single due event.  `hyp`/`unif` are the RNG oracles this event's
`SimInf_sample_select` call consumes.  On a sampler error the loop breaks
before marking the node or advancing the index; a NEGATIVE_STATE flagged
by the apply loops does not prevent either (matching the C control
flow). -/
def processE1Step (irE jcE : Nat → Nat) (Nmat : Int → Int) (Nc : Nat)
    (hyp : Int → Int → Int → Int) (unif : Nat → ℚ)
    (ev : ScheduledEvent) (st : EventState) : EventState :=
  if ev.event = ENTER_EVENT then
    let st' :=
      if jcE ev.select < jcE (ev.select + 1) then
        let i : Int := ((ev.node * Nc + irE (jcE ev.select) : Nat) : Int)
        let uu' := Function.update st.uu i (st.uu i + ev.n)
        { st with
          uu := uu'
          errcode :=
            (if uu' i < 0 then SIMINF_ERR_NEGATIVE_STATE else st.errcode) }
      else st
    { st' with
      update_node := Function.update st'.update_node ev.node 1
      idx := st'.idx + 1 }
  else
    let r := SimInf_sample_select irE jcE Nc st.uu ev.node ev.select ev.n
      ev.proportion hyp unif
    if r.2 ≠ 0 then { st with errcode := r.2 }
    else
      let res :=
        if ev.event = EXIT_EVENT then
          exitApply r.1 ((ev.node * Nc : Nat) : Int)
            (selectCol irE jcE ev.select) st.uu
        else
          internalApply r.1 ((ev.node * Nc : Nat) : Int) Nmat Nc ev.shift
            (selectCol irE jcE ev.select) st.uu
      { uu := res.1
        errcode := res.2
        update_node := Function.update st.update_node ev.node 1
        idx := st.idx + 1 }

/-- The E1 while-loop of `SimInf_process_E1_events` (SimInf_solver.c lines
428-496): process events while the head is due (`tt >= time`) and no
error has occurred.  The RNG oracles are indexed by the queue position. -/
def processE1Events (irE jcE : Nat → Nat) (Nmat : Int → Int) (Nc : Nat)
    (hyp : Nat → Int → Int → Int → Int) (unif : Nat → Nat → ℚ) (tt : ℚ) :
    List ScheduledEvent → EventState → EventState
  | [], st => st
  | ev :: rest, st =>
      if st.errcode = 0 ∧ ((ev.time : Int) : ℚ) ≤ tt then
        processE1Events irE jcE Nmat Nc hyp unif tt rest
          (processE1Step irE jcE Nmat Nc (hyp st.idx) (unif st.idx) ev st)
      else st

/-- The body of the E2 while-loop (SimInf_solver.c lines 511-550) for a
single due EXTERNAL_TRANSFER event. -/
def processE2Step (irE jcE : Nat → Nat) (Nmat : Int → Int) (Nc : Nat)
    (hyp : Int → Int → Int → Int) (unif : Nat → ℚ)
    (ev : ScheduledEvent) (st : EventState) : EventState :=
  let r := SimInf_sample_select irE jcE Nc st.uu ev.node ev.select ev.n
    ev.proportion hyp unif
  if r.2 ≠ 0 then { st with errcode := r.2 }
  else
    let res := e2Apply r.1 ev.node ev.dest Nmat Nc ev.shift
      (selectCol irE jcE ev.select) st.uu
    { uu := res.1
      errcode := res.2
      update_node :=
        Function.update (Function.update st.update_node ev.node 1) ev.dest 1
      idx := st.idx + 1 }

/-- The E2 while-loop of `SimInf_process_E2_events` (SimInf_solver.c lines
501-554). -/
def processE2Events (irE jcE : Nat → Nat) (Nmat : Int → Int) (Nc : Nat)
    (hyp : Nat → Int → Int → Int → Int) (unif : Nat → Nat → ℚ) (tt : ℚ) :
    List ScheduledEvent → EventState → EventState
  | [], st => st
  | ev :: rest, st =>
      if st.errcode = 0 ∧ ((ev.time : Int) : ℚ) ≤ tt then
        processE2Events irE jcE Nmat Nc hyp unif tt rest
          (processE2Step irE jcE Nmat Nc (hyp st.idx) (unif st.idx) ev st)
      else st

/-! ### SSA stoichiometry application (SimInf_solver_ssa.c lines 293-298) -/

/-- One entry `j` of the stoichiometry column: `u[node*Nc + irS[j]] +=
prS[j]`, flagging NEGATIVE_STATE if the result is negative.  The flag is
sticky: the C loop does not break. -/
def stoichStep (irS : Nat → Nat) (prS : Nat → Int) (Nc node : Nat)
    (p : (Int → Int) × Int) (j : Nat) : (Int → Int) × Int :=
  let i : Int := ((node * Nc + irS j : Nat) : Int)
  let u' := Function.update p.1 i (p.1 i + prS j)
  (u', if u' i < 0 then SIMINF_ERR_NEGATIVE_STATE else p.2)

/-- Step 1c of the SSA stepper: apply the whole stoichiometry column `tr`
of `S`. -/
def applyStoich (irS jcS : Nat → Nat) (prS : Nat → Int) (Nc : Nat)
    (node tr : Nat) (u : Int → Int) : (Int → Int) × Int :=
  (colIdx jcS tr).foldl (stoichStep irS prS Nc node) (u, 0)

/-! ### Non-negativity of the compartment state -/

/-- The guarantee every state-mutating operation of the solver maintains:
with a clean error code the array is componentwise non-negative, and if
any slot is negative the NEGATIVE_STATE code has been flagged. -/
def StateOk (uu : Int → Int) (ec : Int) : Prop :=
  (ec = 0 → ∀ a, 0 ≤ uu a) ∧
  ((∃ a, uu a < 0) → ec = SIMINF_ERR_NEGATIVE_STATE)

theorem neg_state_ne_zero : SIMINF_ERR_NEGATIVE_STATE ≠ 0 := by
  norm_num [SIMINF_ERR_NEGATIVE_STATE]

theorem stateOk_of_nonneg (uu : Int → Int) (ec : Int)
    (h : ∀ a, 0 ≤ uu a) : StateOk uu ec :=
  ⟨fun _ => h, fun ⟨a, ha⟩ => absurd (h a) (not_le.mpr ha)⟩

theorem stateOk_neg (uu : Int → Int) :
    StateOk uu SIMINF_ERR_NEGATIVE_STATE :=
  ⟨fun h => absurd h neg_state_ne_zero, fun _ => rfl⟩

theorem nonneg_update_of_check (uu : Int → Int) (i v : Int)
    (h : ∀ a, 0 ≤ uu a) (hch : ¬ (Function.update uu i v i < 0)) :
    ∀ a, 0 ≤ Function.update uu i v a := by
  intro a
  by_cases ha : a = i
  · subst ha
    rw [Function.update_same] at hch ⊢
    omega
  · rw [Function.update_noteq ha]
    exact h a

theorem exitApply_stateOk (indiv : Nat → Int) (base : Int) :
    ∀ (l : List Nat) (uu : Int → Int), (∀ a, 0 ≤ uu a) →
      StateOk (exitApply indiv base l uu).1 (exitApply indiv base l uu).2 := by
  intro l
  induction l with
  | nil => intro uu h; exact stateOk_of_nonneg _ _ h
  | cons jj rest ih =>
      intro uu h
      simp only [exitApply]
      split_ifs with hneg
      · exact stateOk_neg _
      · exact ih _ (nonneg_update_of_check _ _ _ h hneg)

theorem internalApply_stateOk (indiv : Nat → Int) (base : Int)
    (Nmat : Int → Int) (Nc : Nat) (shift : Int) :
    ∀ (l : List Nat) (uu : Int → Int), (∀ a, 0 ≤ uu a) →
      StateOk (internalApply indiv base Nmat Nc shift l uu).1
        (internalApply indiv base Nmat Nc shift l uu).2 := by
  intro l
  induction l with
  | nil => intro uu h; exact stateOk_of_nonneg _ _ h
  | cons jj rest ih =>
      intro uu h
      simp only [internalApply]
      split_ifs with h1 h2
      · exact stateOk_neg _
      · exact stateOk_neg _
      · exact ih _ (nonneg_update_of_check _ _ _
          (nonneg_update_of_check _ _ _ h h1) h2)

theorem e2Apply_stateOk (indiv : Nat → Int) (node dest : Nat)
    (Nmat : Int → Int) (Nc : Nat) (shift : Int) :
    ∀ (l : List Nat) (uu : Int → Int), (∀ a, 0 ≤ uu a) →
      StateOk (e2Apply indiv node dest Nmat Nc shift l uu).1
        (e2Apply indiv node dest Nmat Nc shift l uu).2 := by
  intro l
  induction l with
  | nil => intro uu h; exact stateOk_of_nonneg _ _ h
  | cons jj rest ih =>
      intro uu h
      simp only [e2Apply]
      generalize (if shift < 0 then (0 : Int)
        else Nmat (shift * (Nc : Int) + (jj : Int))) = ll
      split_ifs with h1 h2
      · exact stateOk_neg _
      · exact stateOk_neg _
      · exact ih _ (nonneg_update_of_check _ _ _
          (nonneg_update_of_check _ _ _ h h1) h2)

theorem stoichFold_stateOk (irS : Nat → Nat) (prS : Nat → Int)
    (Nc node : Nat) :
    ∀ (l : List Nat) (p : (Int → Int) × Int),
      (p.2 = 0 ∨ p.2 = SIMINF_ERR_NEGATIVE_STATE) →
      StateOk p.1 p.2 →
      StateOk (l.foldl (stoichStep irS prS Nc node) p).1
        (l.foldl (stoichStep irS prS Nc node) p).2 := by
  intro l
  induction l with
  | nil => intro p _ h2; exact h2
  | cons j rest ih =>
      intro p h1 h2
      simp only [List.foldl_cons]
      refine ih _ ?_ ?_
      · simp only [stoichStep]
        split_ifs
        · exact Or.inr rfl
        · exact h1
      · simp only [stoichStep]
        split_ifs with hneg
        · exact stateOk_neg _
        · constructor
          · intro hec0
            exact nonneg_update_of_check _ _ _ (h2.1 hec0) hneg
          · rintro ⟨a, ha⟩
            refine h2.2 ⟨a, ?_⟩
            by_cases hai : a = ((node * Nc + irS j : Nat) : Int)
            · subst hai; exact absurd ha hneg
            · rwa [Function.update_noteq hai] at ha

theorem applyStoich_stateOk (irS jcS : Nat → Nat) (prS : Nat → Int)
    (Nc node tr : Nat) (u : Int → Int) (hu : ∀ a, 0 ≤ u a) :
    StateOk (applyStoich irS jcS prS Nc node tr u).1
      (applyStoich irS jcS prS Nc node tr u).2 :=
  stoichFold_stateOk irS prS Nc node (colIdx jcS tr) (u, 0)
    (Or.inl rfl) (stateOk_of_nonneg _ _ hu)

theorem processE1Step_stateOk (irE jcE : Nat → Nat) (Nmat : Int → Int)
    (Nc : Nat) (hyp : Int → Int → Int → Int) (unif : Nat → ℚ)
    (ev : ScheduledEvent) (st : EventState)
    (hu : ∀ a, 0 ≤ st.uu a) :
    StateOk (processE1Step irE jcE Nmat Nc hyp unif ev st).uu
      (processE1Step irE jcE Nmat Nc hyp unif ev st).errcode := by
  simp only [processE1Step]
  split_ifs with hev hcol hneg hsm hex
  · -- ENTER, non-empty column, negative result
    exact stateOk_neg _
  · -- ENTER, non-empty column, check passed
    exact stateOk_of_nonneg _ _ (nonneg_update_of_check _ _ _ hu hneg)
  · -- ENTER with an empty column: state unchanged
    exact stateOk_of_nonneg _ _ hu
  · -- sampler error: state unchanged
    exact stateOk_of_nonneg _ _ hu
  · -- EXIT
    exact exitApply_stateOk _ _ _ _ hu
  · -- INTERNAL_TRANSFER
    exact internalApply_stateOk _ _ _ _ _ _ _ hu

theorem processE2Step_stateOk (irE jcE : Nat → Nat) (Nmat : Int → Int)
    (Nc : Nat) (hyp : Int → Int → Int → Int) (unif : Nat → ℚ)
    (ev : ScheduledEvent) (st : EventState)
    (hu : ∀ a, 0 ≤ st.uu a) :
    StateOk (processE2Step irE jcE Nmat Nc hyp unif ev st).uu
      (processE2Step irE jcE Nmat Nc hyp unif ev st).errcode := by
  simp only [processE2Step]
  split_ifs with hsm
  · exact stateOk_of_nonneg _ _ hu
  · exact e2Apply_stateOk _ _ _ _ _ _ _ _ hu

theorem processE1Events_stateOk (irE jcE : Nat → Nat) (Nmat : Int → Int)
    (Nc : Nat) (hyp : Nat → Int → Int → Int → Int) (unif : Nat → Nat → ℚ)
    (tt : ℚ) :
    ∀ (queue : List ScheduledEvent) (st : EventState),
      StateOk st.uu st.errcode →
      StateOk (processE1Events irE jcE Nmat Nc hyp unif tt queue st).uu
        (processE1Events irE jcE Nmat Nc hyp unif tt queue st).errcode := by
  intro queue
  induction queue with
  | nil => intro st h; exact h
  | cons ev rest ih =>
      intro st h
      simp only [processE1Events]
      split_ifs with hcond
      · exact ih _ (processE1Step_stateOk irE jcE Nmat Nc _ _ ev st
          (h.1 hcond.1))
      · exact h

theorem processE2Events_stateOk (irE jcE : Nat → Nat) (Nmat : Int → Int)
    (Nc : Nat) (hyp : Nat → Int → Int → Int → Int) (unif : Nat → Nat → ℚ)
    (tt : ℚ) :
    ∀ (queue : List ScheduledEvent) (st : EventState),
      StateOk st.uu st.errcode →
      StateOk (processE2Events irE jcE Nmat Nc hyp unif tt queue st).uu
        (processE2Events irE jcE Nmat Nc hyp unif tt queue st).errcode := by
  intro queue
  induction queue with
  | nil => intro st h; exact h
  | cons ev rest ih =>
      intro st h
      simp only [processE2Events]
      split_ifs with hcond
      · exact ih _ (processE2Step_stateOk irE jcE Nmat Nc _ _ ev st
          (h.1 hcond.1))
      · exact h

/-- C1: starting from a non-negative compartment state, the SSA
stoichiometry update and the scheduled-event appliers (ENTER, EXIT,
INTERNAL_TRANSFER via the E1 loop; EXTERNAL_TRANSFER via the E2 loop)
keep every compartment non-negative whenever they finish with a clean
error code, and flag `SIMINF_ERR_NEGATIVE_STATE` — which aborts the run
at the next error check — whenever a compartment is left negative. -/
theorem negative_state_guard :
    (∀ (irS jcS : Nat → Nat) (prS : Nat → Int) (Nc node tr : Nat)
       (u : Int → Int), (∀ a, 0 ≤ u a) →
      StateOk (applyStoich irS jcS prS Nc node tr u).1
        (applyStoich irS jcS prS Nc node tr u).2) ∧
    (∀ (irE jcE : Nat → Nat) (Nmat : Int → Int) (Nc : Nat)
       (hyp : Nat → Int → Int → Int → Int) (unif : Nat → Nat → ℚ) (tt : ℚ)
       (queue : List ScheduledEvent) (st : EventState),
      st.errcode = 0 → (∀ a, 0 ≤ st.uu a) →
      StateOk (processE1Events irE jcE Nmat Nc hyp unif tt queue st).uu
        (processE1Events irE jcE Nmat Nc hyp unif tt queue st).errcode) ∧
    (∀ (irE jcE : Nat → Nat) (Nmat : Int → Int) (Nc : Nat)
       (hyp : Nat → Int → Int → Int → Int) (unif : Nat → Nat → ℚ) (tt : ℚ)
       (queue : List ScheduledEvent) (st : EventState),
      st.errcode = 0 → (∀ a, 0 ≤ st.uu a) →
      StateOk (processE2Events irE jcE Nmat Nc hyp unif tt queue st).uu
        (processE2Events irE jcE Nmat Nc hyp unif tt queue st).errcode) := by
  refine ⟨?_, ?_, ?_⟩
  · intro irS jcS prS Nc node tr u hu
    exact applyStoich_stateOk irS jcS prS Nc node tr u hu
  · intro irE jcE Nmat Nc hyp unif tt queue st h0 hu
    exact processE1Events_stateOk irE jcE Nmat Nc hyp unif tt queue st
      (stateOk_of_nonneg _ _ hu)
  · intro irE jcE Nmat Nc hyp unif tt queue st h0 hu
    exact processE2Events_stateOk irE jcE Nmat Nc hyp unif tt queue st
      (stateOk_of_nonneg _ _ hu)

/-- Witness for C1: a concrete stoichiometry application (one entry, +1
on compartment 0 of a zero state) succeeds and leaves the state
non-negative. -/
theorem negative_state_guard_witness :
    0 ≤ (applyStoich (fun _ => 0) (fun t => t) (fun _ => 1) 1 0 0
      (fun _ => 0)).1 0 :=
  (negative_state_guard.1 (fun _ => 0) (fun t => t) (fun _ => 1) 1 0 0
    (fun _ => 0) (fun _ => le_refl 0)).1
    (by norm_num [applyStoich, stoichStep, colIdx, List.range_succ]) 0

/-- C9: an ENTER event whose select column is empty (`jcE[select] ==
jcE[select+1]`) leaves every compartment of `u` unchanged and raises no
error, yet still sets `update_node[node] = 1` and consumes the event. -/
theorem enter_empty_select_frame (irE jcE : Nat → Nat) (Nmat : Int → Int)
    (Nc : Nat) (hyp : Nat → Int → Int → Int → Int) (unif : Nat → Nat → ℚ)
    (tt : ℚ) (ev : ScheduledEvent) (st : EventState)
    (hev : ev.event = ENTER_EVENT)
    (hempty : jcE (ev.select + 1) ≤ jcE ev.select)
    (herr : st.errcode = 0)
    (hdue : ((ev.time : Int) : ℚ) ≤ tt) :
    (∀ a, (processE1Events irE jcE Nmat Nc hyp unif tt [ev] st).uu a
        = st.uu a) ∧
    (processE1Events irE jcE Nmat Nc hyp unif tt [ev] st).errcode = 0 ∧
    (processE1Events irE jcE Nmat Nc hyp unif tt [ev] st).update_node ev.node
        = 1 ∧
    (processE1Events irE jcE Nmat Nc hyp unif tt [ev] st).idx = st.idx + 1
    := by
  have hnot : ¬ (jcE ev.select < jcE (ev.select + 1)) := Nat.not_lt.mpr hempty
  simp only [processE1Events, processE1Step, if_pos (And.intro herr hdue),
    hev, if_pos rfl, if_neg hnot]
  exact ⟨fun a => rfl, herr, Function.update_same _ _ _, rfl⟩

/-- Witness for C9: a concrete ENTER event on an all-empty select matrix
is consumed, marks its node, and changes nothing. -/
theorem enter_empty_select_frame_witness :
    ((processE1Events (fun _ => 0) (fun _ => 0) (fun _ => 0) 1
        (fun _ _ _ _ => 0) (fun _ _ => 1/2) 0
        [⟨ENTER_EVENT, 0, 2, 0, 5, 1/2, 0, -1⟩]
        ⟨fun _ => 9, fun _ => 0, 0, 0⟩).uu 2 = 9) ∧
    ((processE1Events (fun _ => 0) (fun _ => 0) (fun _ => 0) 1
        (fun _ _ _ _ => 0) (fun _ _ => 1/2) 0
        [⟨ENTER_EVENT, 0, 2, 0, 5, 1/2, 0, -1⟩]
        ⟨fun _ => 9, fun _ => 0, 0, 0⟩).errcode = 0) ∧
    ((processE1Events (fun _ => 0) (fun _ => 0) (fun _ => 0) 1
        (fun _ _ _ _ => 0) (fun _ _ => 1/2) 0
        [⟨ENTER_EVENT, 0, 2, 0, 5, 1/2, 0, -1⟩]
        ⟨fun _ => 9, fun _ => 0, 0, 0⟩).update_node 2 = 1) ∧
    ((processE1Events (fun _ => 0) (fun _ => 0) (fun _ => 0) 1
        (fun _ _ _ _ => 0) (fun _ _ => 1/2) 0
        [⟨ENTER_EVENT, 0, 2, 0, 5, 1/2, 0, -1⟩]
        ⟨fun _ => 9, fun _ => 0, 0, 0⟩).idx = 1) := by
  obtain ⟨h1, h2, h3, h4⟩ := enter_empty_select_frame (fun _ => 0)
    (fun _ => 0) (fun _ => 0) 1 (fun _ _ _ _ => 0) (fun _ _ => 1/2) 0
    ⟨ENTER_EVENT, 0, 2, 0, 5, 1/2, 0, -1⟩ ⟨fun _ => 9, fun _ => 0, 0, 0⟩
    rfl (le_refl 0) rfl (by norm_num)
  exact ⟨h1 2, h2, h3, h4⟩

/-! ### Conservation of the grand total by EXTERNAL_TRANSFER -/

/-- The total number of individuals over the flat compartment grid
`[0, M)` (with `M = Nn * Nc`). -/
def gridSum (M : Nat) (uu : Int → Int) : Int :=
  ∑ a ∈ Finset.range M, uu ((a : Nat) : Int)

theorem gridSum_update (M : Nat) (uu : Int → Int) (i v : Int)
    (h0 : 0 ≤ i) (hM : i < (M : Int)) :
    gridSum M (Function.update uu i v) = gridSum M uu + v - uu i := by
  have hi : ((i.toNat : Nat) : Int) = i := Int.toNat_of_nonneg h0
  have hiM : i.toNat < M := by omega
  have key : ∀ a ∈ Finset.range M,
      Function.update uu i v ((a : Nat) : Int)
        = uu ((a : Nat) : Int) + (if a = i.toNat then v - uu i else 0) := by
    intro a _
    by_cases ha : a = i.toNat
    · subst ha
      rw [if_pos rfl, hi, Function.update_same]
      ring
    · rw [if_neg ha, Function.update_noteq (fun hc => ha (by omega)), add_zero]
  calc gridSum M (Function.update uu i v)
      = ∑ a ∈ Finset.range M,
          (uu ((a : Nat) : Int) + (if a = i.toNat then v - uu i else 0)) :=
        Finset.sum_congr rfl key
    _ = gridSum M uu
        + ∑ a ∈ Finset.range M, (if a = i.toNat then v - uu i else 0) := by
        rw [Finset.sum_add_distrib]; rfl
    _ = gridSum M uu + (v - uu i) := by
        rw [Finset.sum_eq_single i.toNat (fun b _ hb => if_neg hb)
          (fun habs => absurd (Finset.mem_range.mpr hiM) habs), if_pos rfl]
    _ = gridSum M uu + v - uu i := by ring

/-- The E2 transfer loop moves individuals without creating or destroying
any: on the error-free path the grand total over `[0, M)` is unchanged,
provided every touched slot lies inside the grid. -/
theorem e2Apply_gridSum (indiv : Nat → Int) (node dest : Nat)
    (Nmat : Int → Int) (Nc : Nat) (shift : Int) (M : Nat) :
    ∀ (l : List Nat) (uu : Int → Int),
      (∀ jj ∈ l,
        (0 : Int) ≤ ((dest * Nc + jj : Nat) : Int)
            + (if shift < 0 then 0
               else Nmat (shift * (Nc : Int) + (jj : Int))) ∧
        ((dest * Nc + jj : Nat) : Int)
            + (if shift < 0 then 0
               else Nmat (shift * (Nc : Int) + (jj : Int))) < (M : Int) ∧
        ((node * Nc + jj : Nat) : Int) < (M : Int)) →
      (e2Apply indiv node dest Nmat Nc shift l uu).2 = 0 →
      gridSum M (e2Apply indiv node dest Nmat Nc shift l uu).1
        = gridSum M uu := by
  intro l
  induction l with
  | nil => intro uu _ _; rfl
  | cons jj rest ih =>
      intro uu hrange hok
      obtain ⟨hd0, hdM, hnM⟩ := hrange jj (List.mem_cons_self jj rest)
      simp only [e2Apply] at hok ⊢
      set ll : Int := (if shift < 0 then (0 : Int)
        else Nmat (shift * (Nc : Int) + (jj : Int))) with hll
      split_ifs at hok ⊢ with h1 h2
      · exact absurd hok neg_state_ne_zero
      · exact absurd hok neg_state_ne_zero
      · have hstep1 := gridSum_update M uu
          (((dest * Nc + jj : Nat) : Int) + ll)
          (uu (((dest * Nc + jj : Nat) : Int) + ll) + indiv jj) hd0 hdM
        have hstep2 := gridSum_update M
          (Function.update uu (((dest * Nc + jj : Nat) : Int) + ll)
            (uu (((dest * Nc + jj : Nat) : Int) + ll) + indiv jj))
          ((node * Nc + jj : Nat) : Int)
          (Function.update uu (((dest * Nc + jj : Nat) : Int) + ll)
            (uu (((dest * Nc + jj : Nat) : Int) + ll) + indiv jj)
            ((node * Nc + jj : Nat) : Int) - indiv jj)
          (Int.natCast_nonneg _) hnM
        rw [ih _ (fun jj' hj => hrange jj' (List.mem_cons_of_mem jj hj)) hok]
        omega

/-- C10: an EXTERNAL_TRANSFER event applied without error leaves the
grand total of `u` over the whole grid unchanged — what is added to the
destination node equals what is removed from the source node. -/
theorem e2_transfer_conserves_total (irE jcE : Nat → Nat) (Nmat : Int → Int)
    (Nc : Nat) (hyp : Int → Int → Int → Int) (unif : Nat → ℚ)
    (ev : ScheduledEvent) (st : EventState) (M : Nat)
    (hrange : ∀ jj ∈ selectCol irE jcE ev.select,
        (0 : Int) ≤ ((ev.dest * Nc + jj : Nat) : Int)
            + (if ev.shift < 0 then 0
               else Nmat (ev.shift * (Nc : Int) + (jj : Int))) ∧
        ((ev.dest * Nc + jj : Nat) : Int)
            + (if ev.shift < 0 then 0
               else Nmat (ev.shift * (Nc : Int) + (jj : Int))) < (M : Int) ∧
        ((ev.node * Nc + jj : Nat) : Int) < (M : Int))
    (hok : (processE2Step irE jcE Nmat Nc hyp unif ev st).errcode = 0) :
    gridSum M (processE2Step irE jcE Nmat Nc hyp unif ev st).uu
      = gridSum M st.uu := by
  simp only [processE2Step] at hok ⊢
  split_ifs at hok ⊢ with hsm
  · exact absurd hok hsm
  · exact e2Apply_gridSum _ ev.node ev.dest Nmat Nc ev.shift M
      (selectCol irE jcE ev.select) st.uu hrange hok

/-- Witness for C10: moving 2 of 3 individuals from node 0 to node 1
(one compartment, no shift) preserves the grand total. -/
theorem e2_transfer_conserves_total_witness :
    gridSum 2 (processE2Step (fun _ => 0) (fun s => s) (fun _ => 0) 1
        (fun _ _ _ => 0) (fun _ => 1/2)
        ⟨EXTERNAL_TRANSFER_EVENT, 0, 0, 1, 2, 1/2, 0, -1⟩
        ⟨fun _ => 3, fun _ => 0, 0, 0⟩).uu
      = gridSum 2 (fun _ => (3 : Int)) := by
  refine e2_transfer_conserves_total (fun _ => 0) (fun s => s) (fun _ => 0) 1
    (fun _ _ _ => 0) (fun _ => 1/2)
    ⟨EXTERNAL_TRANSFER_EVENT, 0, 0, 1, 2, 1/2, 0, -1⟩
    ⟨fun _ => 3, fun _ => 0, 0, 0⟩ 2 ?_ ?_
  · intro jj hj
    norm_num [selectCol, colIdx] at hj
    subst hj
    norm_num
  · norm_num [processE2Step, SimInf_sample_select, selectCol, colIdx,
      sampleCount, uAt, e2Apply]

/-! ### SSA transition selection (SimInf_solver_ssa.c lines 267-298) -/

/-- The cumulative-rate linear search (lines 270-272): `for (tr = 0, cum =
t_rate[node*Nt]; tr < Nt && rand > cum; tr++, cum += t_rate[node*Nt+tr]);`.
`t_rate` is the node's slice; `fuel` maintains `Nt - tr`. -/
def trSearchLoop (t_rate : Nat → ℚ) (rand : ℚ) : Nat → Nat → ℚ → Nat
  | 0, tr, _ => tr
  | fuel+1, tr, cum =>
      if cum < rand then
        trSearchLoop t_rate rand fuel (tr+1) (cum + t_rate (tr+1))
      else tr

/-- The off-the-end clamp (lines 275-276): `if (tr >= Nt) tr = Nt - 1;`
applied to the search result. -/
def clampedCandidate (t_rate : Nat → ℚ) (Nt : Nat) (rand : ℚ) : Nat :=
  let tr0 := trSearchLoop t_rate rand Nt 0 (t_rate 0)
  if Nt ≤ tr0 then Nt - 1 else tr0

/-- The backward walk of the floating-point fix (line 280):
`for ( ; tr > 0 && t_rate[node * Nt + tr] == 0.0; tr--);`. -/
def walkBack (t_rate : Nat → ℚ) : Nat → Nat
  | 0 => 0
  | tr+1 => if t_rate (tr+1) = 0 then walkBack t_rate tr else tr+1

/-- Step 1b (lines 269-291): the selected transition, or `none` for the
nil event of lines 286-290. -/
def ssaSelect (t_rate : Nat → ℚ) (Nt : Nat) (rand : ℚ) : Option Nat :=
  let tr1 := clampedCandidate t_rate Nt rand
  if t_rate tr1 = 0 then
    let tr2 := walkBack t_rate tr1
    if t_rate tr2 = 0 then none else some tr2
  else some tr1

/-- The observable outcome of one SSA micro-step after the waiting-time
draw: the compartment state, the node's rate sum, which transition fired,
and the error code. -/
structure MicroStep where
  u : Int → Int
  sum_t_rate : ℚ
  fired : Option Nat
  errcode : Int

/-- Steps 1b-1c of the SSA stepper: select a transition for `rand =
uniform_pos * sum_t_rate[node]` and apply its stoichiometry; on the nil
event zero `sum_t_rate[node]` and leave the state untouched (lines
286-290). -/
def ssaTransitionStep (irS jcS : Nat → Nat) (prS : Nat → Int) (Nc Nt : Nat)
    (t_rate : Nat → ℚ) (sum_t_rate : ℚ) (node : Nat) (u : Int → Int)
    (rand : ℚ) : MicroStep :=
  match ssaSelect t_rate Nt rand with
  | none => ⟨u, 0, none, 0⟩
  | some tr =>
      let res := applyStoich irS jcS prS Nc node tr u
      ⟨res.1, sum_t_rate, some tr, res.2⟩

theorem walkBack_le (t_rate : Nat → ℚ) : ∀ tr, walkBack t_rate tr ≤ tr := by
  intro tr
  induction tr with
  | zero => exact le_refl 0
  | succ n ih =>
      simp only [walkBack]
      split_ifs
      · exact le_trans ih (Nat.le_succ n)
      · exact le_refl _

theorem walkBack_zero_above (t_rate : Nat → ℚ) :
    ∀ tr j, walkBack t_rate tr < j → j ≤ tr → t_rate j = 0 := by
  intro tr
  induction tr with
  | zero => intro j h1 h2; simp only [walkBack] at h1; omega
  | succ n ih =>
      intro j h1 h2
      simp only [walkBack] at h1
      by_cases h : t_rate (n+1) = 0
      · rw [if_pos h] at h1
        rcases Nat.lt_succ_iff_lt_or_eq.mp (Nat.lt_succ_of_le h2) with hj | hj
        · exact ih j h1 (by omega)
        · rw [hj]; exact h
      · rw [if_neg h] at h1
        omega

theorem walkBack_nonzero_or (t_rate : Nat → ℚ) :
    ∀ tr, t_rate (walkBack t_rate tr) ≠ 0 ∨ walkBack t_rate tr = 0 := by
  intro tr
  induction tr with
  | zero => exact Or.inr rfl
  | succ n ih =>
      simp only [walkBack]
      split_ifs with h
      · exact ih
      · exact Or.inl h

/-- C4: in the SSA transition selection the clamped candidate never
exceeds `Nt - 1`; a nil event (backward walk found no nonzero cached
rate) zeroes `sum_t_rate[node]` and applies no stoichiometry, and
whenever a transition fires its cached rate is nonzero, it is the nearest
transition at or below the clamped candidate with a nonzero cached rate,
and exactly its stoichiometry column is applied. -/
theorem ssa_transition_selection_robust (irS jcS : Nat → Nat)
    (prS : Nat → Int) (Nc Nt : Nat) (t_rate : Nat → ℚ) (sum_t_rate : ℚ)
    (node : Nat) (u : Int → Int) (rand : ℚ) (hNt : 0 < Nt) :
    clampedCandidate t_rate Nt rand ≤ Nt - 1 ∧
    ((ssaTransitionStep irS jcS prS Nc Nt t_rate sum_t_rate node u
        rand).fired = none →
      (∀ j ≤ clampedCandidate t_rate Nt rand, t_rate j = 0) ∧
      (∀ a, (ssaTransitionStep irS jcS prS Nc Nt t_rate sum_t_rate node u
          rand).u a = u a) ∧
      (ssaTransitionStep irS jcS prS Nc Nt t_rate sum_t_rate node u
          rand).sum_t_rate = 0) ∧
    (∀ tr, (ssaTransitionStep irS jcS prS Nc Nt t_rate sum_t_rate node u
        rand).fired = some tr →
      t_rate tr ≠ 0 ∧ tr ≤ clampedCandidate t_rate Nt rand ∧
      (∀ j, tr < j → j ≤ clampedCandidate t_rate Nt rand → t_rate j = 0) ∧
      (ssaTransitionStep irS jcS prS Nc Nt t_rate sum_t_rate node u rand).u
        = (applyStoich irS jcS prS Nc node tr u).1 ∧
      (ssaTransitionStep irS jcS prS Nc Nt t_rate sum_t_rate node u
          rand).errcode = (applyStoich irS jcS prS Nc node tr u).2 ∧
      (ssaTransitionStep irS jcS prS Nc Nt t_rate sum_t_rate node u
          rand).sum_t_rate = sum_t_rate) := by
  refine ⟨?_, ?_, ?_⟩
  · simp only [clampedCandidate]
    split_ifs with h
    · exact le_refl _
    · omega
  · intro hnil
    simp only [ssaTransitionStep, ssaSelect] at hnil
    split_ifs at hnil with h1 h2
    · -- nil event: t_rate at the walked-back index is still zero
      have hz : walkBack t_rate (clampedCandidate t_rate Nt rand) = 0 := by
        rcases walkBack_nonzero_or t_rate (clampedCandidate t_rate Nt rand)
          with hnz | hzz
        · exact absurd h2 hnz
        · exact hzz
      refine ⟨?_, ?_, ?_⟩
      · intro j hj
        rcases Nat.eq_zero_or_pos j with hj0 | hjpos
        · rw [hj0, ← hz]; exact h2
        · exact walkBack_zero_above t_rate _ j (by omega) hj
      · intro a
        simp only [ssaTransitionStep, ssaSelect, if_pos h1, if_pos h2]
      · simp only [ssaTransitionStep, ssaSelect, if_pos h1, if_pos h2]
  · intro tr hfired
    simp only [ssaTransitionStep, ssaSelect] at hfired
    split_ifs at hfired with h1 h2
    · -- fired after the backward walk
      have htr : tr = walkBack t_rate (clampedCandidate t_rate Nt rand) := by
        simpa using hfired.symm
      subst htr
      refine ⟨h2, walkBack_le _ _, fun j hj1 hj2 =>
        walkBack_zero_above t_rate _ j hj1 hj2, ?_, ?_, ?_⟩ <;>
        simp only [ssaTransitionStep, ssaSelect, if_pos h1, if_neg h2]
    · -- fired directly at the clamped candidate
      have htr : tr = clampedCandidate t_rate Nt rand := by
        simpa using hfired.symm
      subst htr
      refine ⟨h1, le_refl _, fun j hj1 hj2 => by omega, ?_, ?_, ?_⟩ <;>
        simp only [ssaTransitionStep, ssaSelect, if_neg h1]

/-- Witness for C4: with cached rates `[1, 0]` and `rand = 1/2` the first
transition fires and `sum_t_rate` is kept. -/
theorem ssa_transition_selection_robust_witness :
    (ssaTransitionStep (fun _ => 0) (fun t => t) (fun _ => 1) 1 2
      (fun j => if j = 0 then 1 else 0) 7 0 (fun _ => 0)
      (1/2)).sum_t_rate = 7 := by
  have h := ssa_transition_selection_robust (fun _ => 0) (fun t => t)
    (fun _ => 1) 1 2 (fun j => if j = 0 then 1 else 0) 7 0 (fun _ => 0)
    (1/2) (by norm_num)
  refine (h.2.2 0 ?_).2.2.2.2.2
  norm_num [ssaTransitionStep, ssaSelect, clampedCandidate, trSearchLoop]

/-! ### Node partitioning (SimInf_split_events, SimInf_solver.c lines
347-366, and SimInf_run_solver_ssa, SimInf_solver_ssa.c lines 635-639) -/

/-- The thread an E1 event with one-based node index `node1` is assigned
to: `k = (node[i] - 1) / chunk_size; if (k >= Nthread) k = Nthread - 1;`
with `chunk_size = Nn / Nthread`. -/
def eventThread (Nn Nthread node1 : Nat) : Nat :=
  let k := (node1 - 1) / (Nn / Nthread)
  if Nthread ≤ k then Nthread - 1 else k

/-- Thread `i`'s first node: `Ni = i * (Nn / Nthread)`. -/
def ssaNi (Nn Nthread i : Nat) : Nat := i * (Nn / Nthread)

/-- Thread `i`'s node count: `Nn / Nthread`, the last thread absorbing the
remainder `Nn % Nthread`. -/
def ssaNnLocal (Nn Nthread i : Nat) : Nat :=
  Nn / Nthread + (if i = Nthread - 1 then Nn % Nthread else 0)

/-- C8: for every node `z` in `[0, Nn)` the thread the event partitioner
assigns (computed from the one-based index `z + 1`) is exactly the thread
whose SSA node slice contains `z`, and that slice is unique — so E1
application and SSA updates for one node run on the same thread.  The
hypothesis `Nthread ≤ Nn` reflects that the C code divides by
`chunk_size = Nn / Nthread`, which must be positive. -/
theorem event_partition_matches_ssa_slice (Nn Nthread z : Nat)
    (hT : 1 ≤ Nthread) (hTn : Nthread ≤ Nn) (hz : z < Nn) :
    eventThread Nn Nthread (z + 1) < Nthread ∧
    ssaNi Nn Nthread (eventThread Nn Nthread (z + 1)) ≤ z ∧
    z < ssaNi Nn Nthread (eventThread Nn Nthread (z + 1))
        + ssaNnLocal Nn Nthread (eventThread Nn Nthread (z + 1)) ∧
    (∀ i < Nthread, ssaNi Nn Nthread i ≤ z →
      z < ssaNi Nn Nthread i + ssaNnLocal Nn Nthread i →
      i = eventThread Nn Nthread (z + 1)) := by
  have hc : 0 < Nn / Nthread := Nat.div_pos hTn (by omega)
  set c := Nn / Nthread with hcdef
  set r := Nn % Nthread with hrdef
  have hNn : Nthread * c + r = Nn := Nat.div_add_mod Nn Nthread
  set k0 := z / c with hk0def
  have hdiv1 : k0 * c ≤ z := Nat.div_mul_le_self z c
  have hdiv2 : z < (k0 + 1) * c := (Nat.div_lt_iff_lt_mul hc).mp
    (Nat.lt_succ_self _)
  rw [add_mul, one_mul] at hdiv2
  have hkdef : eventThread Nn Nthread (z + 1)
      = if Nthread ≤ k0 then Nthread - 1 else k0 := rfl
  have horder : ∀ i j, i < j → j < Nthread →
      ssaNi Nn Nthread i + ssaNnLocal Nn Nthread i ≤ ssaNi Nn Nthread j := by
    intro i j hij hj
    have hine : i ≠ Nthread - 1 := by omega
    simp only [ssaNi, ssaNnLocal, if_neg hine, ← hcdef, add_zero]
    have hmul : (i + 1) * c ≤ j * c := Nat.mul_le_mul_right c (by omega)
    rw [add_mul, one_mul] at hmul
    omega
  rw [hkdef]
  split_ifs with hclamp
  · -- last thread absorbs the tail
    have hmul1 : (Nthread - 1) * c ≤ k0 * c := Nat.mul_le_mul_right c (by omega)
    have hmul2 : (Nthread - 1) * c + c = Nthread * c := by
      have h1 : (Nthread - 1) * c + c = ((Nthread - 1) + 1) * c := by
        rw [add_mul, one_mul]
      rw [h1, Nat.sub_add_cancel hT]
    have hle : ssaNi Nn Nthread (Nthread - 1) ≤ z := by
      simp only [ssaNi, ← hcdef]
      omega
    have hlt : z < ssaNi Nn Nthread (Nthread - 1)
        + ssaNnLocal Nn Nthread (Nthread - 1) := by
      simp only [ssaNi, ssaNnLocal, eq_self_iff_true, if_true, ← hcdef,
        ← hrdef]
      omega
    refine ⟨by omega, hle, hlt, ?_⟩
    intro i hi h1 h2
    by_contra hne
    have hlt2 : i < Nthread - 1 := by omega
    have := horder i (Nthread - 1) hlt2 (by omega)
    omega
  · -- unclamped: the slice of thread z / c
    have hle : ssaNi Nn Nthread k0 ≤ z := by
      simp only [ssaNi, ← hcdef]
      exact hdiv1
    have hlt : z < ssaNi Nn Nthread k0 + ssaNnLocal Nn Nthread k0 := by
      simp only [ssaNi, ssaNnLocal, ← hcdef, ← hrdef]
      split_ifs <;> omega
    refine ⟨by omega, hle, hlt, ?_⟩
    intro i hi h1 h2
    by_contra hne
    rcases Nat.lt_or_ge i k0 with hik | hik
    · have := horder i k0 hik (by omega)
      omega
    · have hik2 : k0 < i := by omega
      have := horder k0 i hik2 hi
      omega

/-- Witness for C8: with 10 nodes on 3 threads (chunk 3, remainder 1),
node 9 (zero-based) belongs to the last thread both for events and for
the SSA slice. -/
theorem event_partition_matches_ssa_slice_witness :
    eventThread 10 3 (9 + 1) < 3 ∧
    ssaNi 10 3 (eventThread 10 3 (9 + 1)) ≤ 9 ∧
    9 < ssaNi 10 3 (eventThread 10 3 (9 + 1))
        + ssaNnLocal 10 3 (eventThread 10 3 (9 + 1)) := by
  obtain ⟨h1, h2, h3, -⟩ := event_partition_matches_ssa_slice 10 3 9
    (by norm_num) (by norm_num) (by norm_num)
  exact ⟨h1, h2, h3⟩

/-! ### The day loop of `SimInf_solver_ssa` (SimInf_solver_ssa.c lines
235-553), embedded for a single thread (`Nthread = 1`, the whole node
range on thread 0).  The model callbacks `tr_fun`/`pts_fun` are genuine
function-pointer inputs of the C solver and stay parameters here; the
per-node local data and the global data, constant for a run, are absorbed
into those parameters.  The RNG draws of the SSA stepper are oracles:
`texp d` stands for `-log(gsl_rng_uniform_pos(rng))` of micro-step `d`
and `rnd d` for the `uniform_pos` draw of the transition selection. -/

/-- Static solver inputs for the embedded day loop. -/
structure SolverParams where
  Nn : Nat
  Nc : Nat
  Nt : Nat
  Nd : Nat
  tlen : Nat
  tspan : Nat → ℚ
  irS : Nat → Nat
  jcS : Nat → Nat
  prS : Nat → Int
  irG : Nat → Nat
  jcG : Nat → Nat
  irE : Nat → Nat
  jcE : Nat → Nat
  Nmat : Int → Int
  trFun : Nat → Nat → (Nat → Int) → (Nat → ℚ) → ℚ → ℚ
  ptsFun : Nat → (Nat → ℚ) → (Nat → Int) → (Nat → ℚ) → ℚ → ((Nat → ℚ) × Int)
  ssaFuel : Nat
  texp : Nat → Nat → Nat → ℚ
  rnd : Nat → Nat → Nat → ℚ
  hypE1 : Nat → Int → Int → Int → Int
  unifE1 : Nat → Nat → ℚ
  hypE2 : Nat → Int → Int → Int → Int
  unifE2 : Nat → Nat → ℚ

/-- The full mutable state of one simulated day. -/
structure DayState where
  uu : Int → Int
  v : Nat → ℚ
  v_new : Nat → ℚ
  t_rate : Nat → ℚ
  sum_t_rate : Nat → ℚ
  t_time : Nat → ℚ
  update_node : Nat → Int
  E1_index : Nat
  E2_index : Nat
  tt : ℚ
  next_day : ℚ
  errcode : Int
  U_it : Nat
  V_it : Nat
  Uout : List (Int → Int)
  Vout : List (Nat → ℚ)

/-- The state of one node during its SSA micro-loop. -/
structure NodeSSA where
  uu : Int → Int
  t_rate : Nat → ℚ
  sum : ℚ
  t : ℚ
  errcode : Int

/-- The shared body of the rate-recomputation loops (lines 302-313 and
473-482): recompute transition `tj`'s rate from the propensity callback,
accumulate the delta, and flag `SIMINF_ERR_INVALID_RATE` on a negative
rate. -/
def rateStep (P : SolverParams) (node : Nat) (u : Int → Int)
    (vSlice : Nat → ℚ) (t : ℚ) (acc : (Nat → ℚ) × ℚ × Int) (tj : Nat) :
    (Nat → ℚ) × ℚ × Int :=
  let rate := P.trFun tj node
    (fun c => u ((node * P.Nc + c : Nat) : Int)) vSlice t
  (Function.update acc.1 (node * P.Nt + tj) rate,
   acc.2.1 + (rate - acc.1 (node * P.Nt + tj)),
   if rate < 0 then SIMINF_ERR_INVALID_RATE else acc.2.2)

/-- Step 1d (lines 302-314): walk the dependency column `tr` of `G` and
recompute each listed rate. -/
def rateUpdate (P : SolverParams) (node : Nat) (u : Int → Int)
    (vSlice : Nat → ℚ) (t : ℚ) (tr : Nat) (t_rate : Nat → ℚ) (ec0 : Int) :
    (Nat → ℚ) × ℚ × Int :=
  ((colIdx P.jcG tr).map P.irG).foldl (rateStep P node u vSlice t)
    (t_rate, 0, ec0)

/-- The inner SSA micro-loop for one node (lines 249-315), fuelled: the C
loop terminates almost surely via steps 1a/1b, which the fuel bounds. -/
def ssaNodeLoop (P : SolverParams) (node : Nat) (vSlice : Nat → ℚ)
    (next_day : ℚ) (texp rnd : Nat → ℚ) :
    Nat → Nat → NodeSSA → NodeSSA
  | 0, _, s => s
  | fuel+1, d, s =>
      if s.sum ≤ 0 then { s with t := next_day }
      else
        let tau := texp d / s.sum
        if next_day ≤ tau + s.t then { s with t := next_day }
        else
          let t' := s.t + tau
          let rand := rnd d * s.sum
          match ssaSelect (fun j => s.t_rate (node * P.Nt + j)) P.Nt rand with
          | none => { s with t := t', sum := 0 }
          | some tr =>
              let res := applyStoich P.irS P.jcS P.prS P.Nc node tr s.uu
              let ec1 : Int := if res.2 ≠ 0 then res.2 else s.errcode
              let upd := rateUpdate P node res.1 vSlice t' tr s.t_rate ec1
              ssaNodeLoop P node vSlice next_day texp rnd fuel (d+1)
                ⟨res.1, upd.1, s.sum + upd.2.1, t', upd.2.2⟩

/-- One node of phase (1): run the node's SSA micro-loop unless an error
was already flagged (the node loop guard `node < sa.Nn && !sa.errcode`). -/
def ssaNodeStep (P : SolverParams) (day : Nat) (st : DayState)
    (node : Nat) : DayState :=
  if st.errcode ≠ 0 then st
  else
    let s1 := ssaNodeLoop P node (fun c => st.v (node * P.Nd + c))
      st.next_day (P.texp day node) (P.rnd day node) P.ssaFuel 0
      ⟨st.uu, st.t_rate, st.sum_t_rate node, st.t_time node, st.errcode⟩
    { st with
      uu := s1.uu
      t_rate := s1.t_rate
      sum_t_rate := Function.update st.sum_t_rate node s1.sum
      t_time := Function.update st.t_time node s1.t
      errcode := s1.errcode }

/-- Phase (1) of a day (lines 246-316): run the SSA micro-loop on every
node, skipping the rest once an error is flagged. -/
def ssaPhase (P : SolverParams) (day : Nat) (st : DayState) : DayState :=
  (List.range P.Nn).foldl (ssaNodeStep P day) st

/-- Phase (2) of a day (lines 318-388): apply the due E1 events. -/
def e1Phase (P : SolverParams) (E1all : List ScheduledEvent)
    (st : DayState) : DayState :=
  let es := processE1Events P.irE P.jcE P.Nmat P.Nc P.hypE1 P.unifE1 st.tt
    (E1all.drop st.E1_index)
    ⟨st.uu, st.update_node, st.errcode, st.E1_index⟩
  { st with
    uu := es.uu
    update_node := es.update_node
    errcode := es.errcode
    E1_index := es.idx }

/-- Phase (3) of a day (lines 395-446): apply the due E2 events. -/
def e2Phase (P : SolverParams) (E2all : List ScheduledEvent)
    (st : DayState) : DayState :=
  let es := processE2Events P.irE P.jcE P.Nmat P.Nc P.hypE2 P.unifE2 st.tt
    (E2all.drop st.E2_index)
    ⟨st.uu, st.update_node, st.errcode, st.E2_index⟩
  { st with
    uu := es.uu
    update_node := es.update_node
    errcode := es.errcode
    E2_index := es.idx }

/-- The full-rate refresh of phase (4) (lines 470-484): recompute all `Nt`
rates of a node from the current `u` and `v_new`. -/
def refreshRates (P : SolverParams) (node : Nat) (u : Int → Int)
    (vNewSlice : Nat → ℚ) (t : ℚ) (t_rate : Nat → ℚ) (ec0 : Int) :
    (Nat → ℚ) × ℚ × Int :=
  (List.range P.Nt).foldl (rateStep P node u vNewSlice t) (t_rate, 0, ec0)

/-- Phase (4) of a day (lines 455-488): the post-step callback per node,
with a rate refresh for flagged nodes; a negative callback return aborts
the node loop with that error code. -/
def postStepPhase (P : SolverParams) : List Nat → DayState → DayState
  | [], st => st
  | node :: rest, st =>
      let pr := P.ptsFun node (fun c => st.v_new (node * P.Nd + c))
        (fun c => st.uu ((node * P.Nc + c : Nat) : Int))
        (fun c => st.v (node * P.Nd + c)) st.tt
      let st1 := { st with
        v_new := fun a =>
          if node * P.Nd ≤ a ∧ a < node * P.Nd + P.Nd
          then pr.1 (a - node * P.Nd) else st.v_new a }
      if pr.2 < 0 then { st1 with errcode := pr.2 }
      else if pr.2 > 0 ∨ st1.update_node node ≠ 0 then
        let upd := refreshRates P node st1.uu
          (fun c => st1.v_new (node * P.Nd + c)) st1.tt st1.t_rate st1.errcode
        postStepPhase P rest { st1 with
          t_rate := upd.1
          sum_t_rate := Function.update st1.sum_t_rate node
            (st1.sum_t_rate node + upd.2.1)
          errcode := upd.2.2
          update_node := Function.update st1.update_node node 0 }
      else postStepPhase P rest st1

/-- Phase (6) output writer (lines 503-510): record a column per crossed
`tspan` entry.  `fuel` bounds the crossings (`tlen - it` suffices). -/
def outputLoop {α : Type*} (tspan : Nat → ℚ) (tlen : Nat) (tt : ℚ)
    (x : α) : Nat → Nat → List α → Nat × List α
  | 0, it, out => (it, out)
  | fuel+1, it, out =>
      if it < tlen ∧ tspan it < tt then
        outputLoop tspan tlen tt x fuel (it+1) (out ++ [x])
      else (it, out)

/-- One iteration of the day loop (lines 235-553, single thread): SSA,
then E1, then E2, then post-step, then the clock advance `tt := next_day;
next_day += 1`, then output, then the `v`/`v_new` swap. -/
def dayStep (P : SolverParams) (E1all E2all : List ScheduledEvent)
    (day : Nat) (st : DayState) : DayState :=
  let s1 := ssaPhase P day st
  let s2 := e1Phase P E1all s1
  let s3 := e2Phase P E2all s2
  let s4 := postStepPhase P (List.range P.Nn) s3
  let s5 := { s4 with tt := s4.next_day, next_day := s4.next_day + 1 }
  let u6 := outputLoop P.tspan P.tlen s5.tt s5.uu (P.tlen - s5.U_it)
    s5.U_it s5.Uout
  let v6 := outputLoop P.tspan P.tlen s5.tt s5.v_new (P.tlen - s5.V_it)
    s5.V_it s5.Vout
  { s5 with
    U_it := u6.1
    Uout := u6.2
    V_it := v6.1
    Vout := v6.2
    v := s5.v_new
    v_new := s5.v }

/-- `k` iterations of the day loop (day `k` is applied last). -/
def runDays (P : SolverParams) (E1all E2all : List ScheduledEvent) :
    Nat → DayState → DayState
  | 0, st => st
  | k+1, st => dayStep P E1all E2all k (runDays P E1all E2all k st)

/-! ### Timing of scheduled events -/

/-- Whether an event is due at clock `tt` (the loop guard `tt >=
e->time[i]`). -/
def dueAt (tt : ℚ) (e : ScheduledEvent) : Bool :=
  decide (((e.time : Int) : ℚ) ≤ tt)

theorem processE1Events_err0 (irE jcE : Nat → Nat) (Nmat : Int → Int)
    (Nc : Nat) (hyp : Nat → Int → Int → Int → Int) (unif : Nat → Nat → ℚ)
    (tt : ℚ) :
    ∀ (q : List ScheduledEvent) (st : EventState),
      (processE1Events irE jcE Nmat Nc hyp unif tt q st).errcode = 0 →
      st.errcode = 0 := by
  intro q
  induction q with
  | nil => intro st h; exact h
  | cons ev rest ih =>
      intro st h
      simp only [processE1Events] at h
      split_ifs at h with hcond
      · exact hcond.1
      · exact h

theorem processE2Events_err0 (irE jcE : Nat → Nat) (Nmat : Int → Int)
    (Nc : Nat) (hyp : Nat → Int → Int → Int → Int) (unif : Nat → Nat → ℚ)
    (tt : ℚ) :
    ∀ (q : List ScheduledEvent) (st : EventState),
      (processE2Events irE jcE Nmat Nc hyp unif tt q st).errcode = 0 →
      st.errcode = 0 := by
  intro q
  induction q with
  | nil => intro st h; exact h
  | cons ev rest ih =>
      intro st h
      simp only [processE2Events] at h
      split_ifs at h with hcond
      · exact hcond.1
      · exact h

theorem processE1Step_idx (irE jcE : Nat → Nat) (Nmat : Int → Int)
    (Nc : Nat) (hyp : Int → Int → Int → Int) (unif : Nat → ℚ)
    (ev : ScheduledEvent) (st : EventState)
    (h : (processE1Step irE jcE Nmat Nc hyp unif ev st).errcode = 0) :
    (processE1Step irE jcE Nmat Nc hyp unif ev st).idx = st.idx + 1 := by
  simp only [processE1Step] at h ⊢
  split_ifs at h ⊢ with hev hcol hneg hsm hex
  · exact absurd h neg_state_ne_zero
  · rfl
  · rfl
  · exact absurd h hsm
  · rfl
  · rfl

theorem processE2Step_idx (irE jcE : Nat → Nat) (Nmat : Int → Int)
    (Nc : Nat) (hyp : Int → Int → Int → Int) (unif : Nat → ℚ)
    (ev : ScheduledEvent) (st : EventState)
    (h : (processE2Step irE jcE Nmat Nc hyp unif ev st).errcode = 0) :
    (processE2Step irE jcE Nmat Nc hyp unif ev st).idx = st.idx + 1 := by
  simp only [processE2Step] at h ⊢
  split_ifs at h ⊢ with hsm
  · exact absurd h hsm
  · rfl

/-- On an error-free pass the E1 loop consumes exactly the maximal due
prefix of its queue. -/
theorem processE1Events_consumes (irE jcE : Nat → Nat) (Nmat : Int → Int)
    (Nc : Nat) (hyp : Nat → Int → Int → Int → Int) (unif : Nat → Nat → ℚ)
    (tt : ℚ) :
    ∀ (q : List ScheduledEvent) (st : EventState),
      (processE1Events irE jcE Nmat Nc hyp unif tt q st).errcode = 0 →
      (processE1Events irE jcE Nmat Nc hyp unif tt q st).idx
        = st.idx + (q.takeWhile (dueAt tt)).length := by
  intro q
  induction q with
  | nil => intro st h; simp [processE1Events]
  | cons ev rest ih =>
      intro st hfin
      simp only [processE1Events] at hfin ⊢
      split_ifs at hfin ⊢ with hcond
      · have hst' := processE1Events_err0 irE jcE Nmat Nc hyp unif tt rest _
          hfin
        have hidx := processE1Step_idx irE jcE Nmat Nc _ _ ev st hst'
        rw [ih _ hfin, hidx,
          List.takeWhile_cons_of_pos (by simpa [dueAt] using hcond.2)]
        simp only [List.length_cons]
        omega
      · have h0 : st.errcode = 0 := hfin
        have hndue : ¬ (((ev.time : Int) : ℚ) ≤ tt) :=
          fun hd => hcond ⟨h0, hd⟩
        rw [List.takeWhile_cons_of_neg (by simpa [dueAt] using hndue)]
        simp

/-- On an error-free pass the E2 loop consumes exactly the maximal due
prefix of its queue. -/
theorem processE2Events_consumes (irE jcE : Nat → Nat) (Nmat : Int → Int)
    (Nc : Nat) (hyp : Nat → Int → Int → Int → Int) (unif : Nat → Nat → ℚ)
    (tt : ℚ) :
    ∀ (q : List ScheduledEvent) (st : EventState),
      (processE2Events irE jcE Nmat Nc hyp unif tt q st).errcode = 0 →
      (processE2Events irE jcE Nmat Nc hyp unif tt q st).idx
        = st.idx + (q.takeWhile (dueAt tt)).length := by
  intro q
  induction q with
  | nil => intro st h; simp [processE2Events]
  | cons ev rest ih =>
      intro st hfin
      simp only [processE2Events] at hfin ⊢
      split_ifs at hfin ⊢ with hcond
      · have hst' := processE2Events_err0 irE jcE Nmat Nc hyp unif tt rest _
          hfin
        have hidx := processE2Step_idx irE jcE Nmat Nc _ _ ev st hst'
        rw [ih _ hfin, hidx,
          List.takeWhile_cons_of_pos (by simpa [dueAt] using hcond.2)]
        simp only [List.length_cons]
        omega
      · have h0 : st.errcode = 0 := hfin
        have hndue : ¬ (((ev.time : Int) : ℚ) ≤ tt) :=
          fun hd => hcond ⟨h0, hd⟩
        rw [List.takeWhile_cons_of_neg (by simpa [dueAt] using hndue)]
        simp

/-! ### What each day phase does to the event cursors and the clock -/

theorem ssaNodeStep_fields (P : SolverParams) (day : Nat) (st : DayState)
    (node : Nat) :
    (ssaNodeStep P day st node).E1_index = st.E1_index ∧
    (ssaNodeStep P day st node).E2_index = st.E2_index ∧
    (ssaNodeStep P day st node).tt = st.tt ∧
    (ssaNodeStep P day st node).next_day = st.next_day := by
  simp only [ssaNodeStep]
  split_ifs <;> exact ⟨rfl, rfl, rfl, rfl⟩

theorem ssaPhase_fields (P : SolverParams) (day : Nat) :
    ∀ (l : List Nat) (st : DayState),
      ((l.foldl (ssaNodeStep P day) st).E1_index = st.E1_index ∧
       (l.foldl (ssaNodeStep P day) st).E2_index = st.E2_index ∧
       (l.foldl (ssaNodeStep P day) st).tt = st.tt ∧
       (l.foldl (ssaNodeStep P day) st).next_day = st.next_day) := by
  intro l
  induction l with
  | nil => intro st; exact ⟨rfl, rfl, rfl, rfl⟩
  | cons a t ih =>
      intro st
      obtain ⟨h1, h2, h3, h4⟩ := ih (ssaNodeStep P day st a)
      obtain ⟨g1, g2, g3, g4⟩ := ssaNodeStep_fields P day st a
      exact ⟨h1.trans g1, h2.trans g2, h3.trans g3, h4.trans g4⟩

theorem ssaNodeStep_err0 (P : SolverParams) (day : Nat) (st : DayState)
    (node : Nat) (h : (ssaNodeStep P day st node).errcode = 0) :
    st.errcode = 0 := by
  by_contra hne
  simp only [ssaNodeStep, if_pos hne] at h
  exact hne h

theorem ssaPhase_err0 (P : SolverParams) (day : Nat) :
    ∀ (l : List Nat) (st : DayState),
      (l.foldl (ssaNodeStep P day) st).errcode = 0 → st.errcode = 0 := by
  intro l
  induction l with
  | nil => intro st h; exact h
  | cons a t ih =>
      intro st h
      exact ssaNodeStep_err0 P day st a (ih _ h)

theorem rateFold_err0 (P : SolverParams) (node : Nat) (u : Int → Int)
    (vSlice : Nat → ℚ) (t : ℚ) :
    ∀ (l : List Nat) (acc : (Nat → ℚ) × ℚ × Int),
      ((l.foldl (rateStep P node u vSlice t) acc).2.2 = 0) → acc.2.2 = 0 := by
  intro l
  induction l with
  | nil => intro acc h; exact h
  | cons a t2 ih =>
      intro acc h
      have h2 := ih _ h
      simp only [rateStep] at h2
      split_ifs at h2 with hr
      · exact absurd h2 (by norm_num [SIMINF_ERR_INVALID_RATE])
      · exact h2

theorem postStepPhase_fields (P : SolverParams) :
    ∀ (l : List Nat) (st : DayState),
      ((postStepPhase P l st).E1_index = st.E1_index ∧
       (postStepPhase P l st).E2_index = st.E2_index ∧
       (postStepPhase P l st).tt = st.tt ∧
       (postStepPhase P l st).next_day = st.next_day) := by
  intro l
  induction l with
  | nil => intro st; exact ⟨rfl, rfl, rfl, rfl⟩
  | cons node rest ih =>
      intro st
      simp only [postStepPhase]
      split_ifs
      · exact ⟨rfl, rfl, rfl, rfl⟩
      · obtain ⟨h1, h2, h3, h4⟩ := ih _
        exact ⟨h1, h2, h3, h4⟩
      · obtain ⟨h1, h2, h3, h4⟩ := ih _
        exact ⟨h1, h2, h3, h4⟩

theorem postStepPhase_err0 (P : SolverParams) :
    ∀ (l : List Nat) (st : DayState),
      (postStepPhase P l st).errcode = 0 → st.errcode = 0 := by
  intro l
  induction l with
  | nil => intro st h; exact h
  | cons node rest ih =>
      intro st h
      simp only [postStepPhase] at h
      split_ifs at h with hrc hupd
      · -- aborted with the negative callback code: contradiction
        exfalso
        have h' : (P.ptsFun node (fun c => st.v_new (node * P.Nd + c))
            (fun c => st.uu ((node * P.Nc + c : Nat) : Int))
            (fun c => st.v (node * P.Nd + c)) st.tt).2 = 0 := h
        omega
      · -- rate refresh path
        have h2 := ih _ h
        have h3 := rateFold_err0 P node _ _ _ (List.range P.Nt) _ h2
        exact h3
      · have h2 := ih _ h
        exact h2

theorem e1Phase_fields (P : SolverParams) (E1all : List ScheduledEvent)
    (st : DayState) :
    (e1Phase P E1all st).E2_index = st.E2_index ∧
    (e1Phase P E1all st).tt = st.tt ∧
    (e1Phase P E1all st).next_day = st.next_day :=
  ⟨rfl, rfl, rfl⟩

theorem e2Phase_fields (P : SolverParams) (E2all : List ScheduledEvent)
    (st : DayState) :
    (e2Phase P E2all st).E1_index = st.E1_index ∧
    (e2Phase P E2all st).tt = st.tt ∧
    (e2Phase P E2all st).next_day = st.next_day :=
  ⟨rfl, rfl, rfl⟩

theorem e1Phase_err0 (P : SolverParams) (E1all : List ScheduledEvent)
    (st : DayState) (h : (e1Phase P E1all st).errcode = 0) :
    st.errcode = 0 :=
  processE1Events_err0 P.irE P.jcE P.Nmat P.Nc P.hypE1 P.unifE1 st.tt
    (E1all.drop st.E1_index) _ h

theorem e2Phase_err0 (P : SolverParams) (E2all : List ScheduledEvent)
    (st : DayState) (h : (e2Phase P E2all st).errcode = 0) :
    st.errcode = 0 :=
  processE2Events_err0 P.irE P.jcE P.Nmat P.Nc P.hypE2 P.unifE2 st.tt
    (E2all.drop st.E2_index) _ h

theorem e1Phase_consumes (P : SolverParams) (E1all : List ScheduledEvent)
    (st : DayState) (h : (e1Phase P E1all st).errcode = 0) :
    (e1Phase P E1all st).E1_index
      = st.E1_index
        + ((E1all.drop st.E1_index).takeWhile (dueAt st.tt)).length :=
  processE1Events_consumes P.irE P.jcE P.Nmat P.Nc P.hypE1 P.unifE1 st.tt
    (E1all.drop st.E1_index) _ h

theorem e2Phase_consumes (P : SolverParams) (E2all : List ScheduledEvent)
    (st : DayState) (h : (e2Phase P E2all st).errcode = 0) :
    (e2Phase P E2all st).E2_index
      = st.E2_index
        + ((E2all.drop st.E2_index).takeWhile (dueAt st.tt)).length :=
  processE2Events_consumes P.irE P.jcE P.Nmat P.Nc P.hypE2 P.unifE2 st.tt
    (E2all.drop st.E2_index) _ h

theorem ssaPhase_fields' (P : SolverParams) (day : Nat) (st : DayState) :
    (ssaPhase P day st).E1_index = st.E1_index ∧
    (ssaPhase P day st).E2_index = st.E2_index ∧
    (ssaPhase P day st).tt = st.tt ∧
    (ssaPhase P day st).next_day = st.next_day :=
  ssaPhase_fields P day (List.range P.Nn) st

/-- The clock advance of phase (5): after one day `tt` equals the old
`next_day` and `next_day` has moved one further. -/
theorem dayStep_clock (P : SolverParams) (E1all E2all : List ScheduledEvent)
    (day : Nat) (st : DayState) :
    (dayStep P E1all E2all day st).tt = st.next_day ∧
    (dayStep P E1all E2all day st).next_day = st.next_day + 1 := by
  have h1 : (dayStep P E1all E2all day st).tt
      = (postStepPhase P (List.range P.Nn)
          (e2Phase P E2all (e1Phase P E1all (ssaPhase P day st)))).next_day :=
    rfl
  have h2 : (dayStep P E1all E2all day st).next_day
      = (postStepPhase P (List.range P.Nn)
          (e2Phase P E2all (e1Phase P E1all (ssaPhase P day st)))).next_day
        + 1 := rfl
  rw [h1, h2, (postStepPhase_fields P _ _).2.2.2,
    (e2Phase_fields P E2all _).2.2, (e1Phase_fields P E1all _).2.2,
    (ssaPhase_fields' P day st).2.2.2]
  exact ⟨rfl, rfl⟩

/-- One clean day consumes exactly the due prefixes of both remaining
queues, against the clock value `st.tt` the iteration entered with. -/
theorem dayStep_spec (P : SolverParams) (E1all E2all : List ScheduledEvent)
    (day : Nat) (st : DayState)
    (h : (dayStep P E1all E2all day st).errcode = 0) :
    st.errcode = 0 ∧
    (dayStep P E1all E2all day st).E1_index
      = st.E1_index
        + ((E1all.drop st.E1_index).takeWhile (dueAt st.tt)).length ∧
    (dayStep P E1all E2all day st).E2_index
      = st.E2_index
        + ((E2all.drop st.E2_index).takeWhile (dueAt st.tt)).length := by
  set s1 := ssaPhase P day st with hs1
  set s2 := e1Phase P E1all s1 with hs2
  set s3 := e2Phase P E2all s2 with hs3
  set s4 := postStepPhase P (List.range P.Nn) s3 with hs4
  have herr4 : s4.errcode = 0 := h
  have herr3 : s3.errcode = 0 := postStepPhase_err0 P _ _ herr4
  have herr2 : s2.errcode = 0 := e2Phase_err0 P E2all _ herr3
  have herr1 : s1.errcode = 0 := e1Phase_err0 P E1all _ herr2
  have herr0 : st.errcode = 0 := ssaPhase_err0 P day _ _ herr1
  obtain ⟨hf1, hf2, hf3, hf4⟩ := ssaPhase_fields' P day st
  refine ⟨herr0, ?_, ?_⟩
  · have hp1 : (dayStep P E1all E2all day st).E1_index = s4.E1_index := rfl
    rw [hp1, hs4, (postStepPhase_fields P _ _).1, hs3,
      (e2Phase_fields P E2all _).1, hs2, e1Phase_consumes P E1all s1 herr2,
      hf1, hf3]
  · have hp2 : (dayStep P E1all E2all day st).E2_index = s4.E2_index := rfl
    have htt2 : s2.tt = st.tt := by
      rw [hs2]
      exact ((e1Phase_fields P E1all s1).2.1).trans hf3
    have hi2 : s2.E2_index = st.E2_index := by
      rw [hs2]
      exact ((e1Phase_fields P E1all s1).1).trans hf2
    rw [hp2, hs4, (postStepPhase_fields P _ _).2.1, hs3,
      e2Phase_consumes P E2all s2 herr3, htt2, hi2]

/-- The global clock value the event phases of day `k` observe: `tspan[0]`
on day 0, then `floor(tspan[0]) + k`. -/
def boundaryClock (t0 : ℚ) : Nat → ℚ
  | 0 => t0
  | k+1 => ((⌊t0⌋ : Int) : ℚ) + ((k : ℚ) + 1)

theorem boundaryClock_mono (t0 : ℚ) (k : Nat) :
    boundaryClock t0 k ≤ boundaryClock t0 (k+1) := by
  cases k with
  | zero =>
      simp only [boundaryClock]
      have := Int.lt_floor_add_one t0
      push_cast
      linarith
  | succ n =>
      simp only [boundaryClock]
      push_cast
      linarith

theorem runDays_clock (P : SolverParams) (E1all E2all : List ScheduledEvent)
    (st0 : DayState) (hnd : st0.next_day = ((⌊st0.tt⌋ : Int) : ℚ) + 1) :
    ∀ k, (runDays P E1all E2all k st0).tt = boundaryClock st0.tt k ∧
      (runDays P E1all E2all k st0).next_day
        = ((⌊st0.tt⌋ : Int) : ℚ) + ((k : ℚ) + 1) := by
  intro k
  induction k with
  | zero => exact ⟨rfl, by simpa using hnd⟩
  | succ k ih =>
      have hc := dayStep_clock P E1all E2all k (runDays P E1all E2all k st0)
      constructor
      · show (dayStep P E1all E2all k (runDays P E1all E2all k st0)).tt = _
        rw [hc.1, ih.2]
        simp only [boundaryClock]
      · show (dayStep P E1all E2all k
          (runDays P E1all E2all k st0)).next_day = _
        rw [hc.2, ih.2]
        push_cast
        ring

theorem dueAt_mono (T U : ℚ) (hTU : T ≤ U) (e : ScheduledEvent)
    (h : dueAt T e = true) : dueAt U e = true := by
  simp only [dueAt, decide_eq_true_eq] at h ⊢
  linarith

theorem takeWhile_drop_takeWhile {α : Type*} (p q : α → Bool)
    (hpq : ∀ a, p a = true → q a = true) :
    ∀ l : List α,
      (l.takeWhile p).length
        + ((l.drop (l.takeWhile p).length).takeWhile q).length
        = (l.takeWhile q).length := by
  intro l
  induction l with
  | nil => simp
  | cons a t ih =>
      by_cases hpa : p a = true
      · rw [List.takeWhile_cons_of_pos hpa,
          List.takeWhile_cons_of_pos (hpq a hpa)]
        simp only [List.length_cons, List.drop_succ_cons]
        omega
      · rw [List.takeWhile_cons_of_neg hpa]
        simp

/-- On a sorted queue, position `j` lies in the due prefix exactly when
its own time is due. -/
theorem takeWhile_due_iff :
    ∀ (l : List ScheduledEvent),
      l.Pairwise (fun a b => a.time ≤ b.time) →
      ∀ (T : ℚ) (j : Nat) (hj : j < l.length),
        (j < (l.takeWhile (dueAt T)).length ↔
          dueAt T (l.get ⟨j, hj⟩) = true) := by
  intro l
  induction l with
  | nil => intro _ T j hj; exact absurd hj (Nat.not_lt_zero j)
  | cons a t ih =>
      intro hs T j hj
      obtain ⟨ha, ht⟩ := List.pairwise_cons.mp hs
      by_cases hpa : dueAt T a = true
      · rw [List.takeWhile_cons_of_pos hpa]
        cases j with
        | zero => simpa using hpa
        | succ n =>
            simp only [List.length_cons, Nat.succ_lt_succ_iff,
              List.get_cons_succ]
            exact ih ht T n (by simpa using hj)
      · rw [List.takeWhile_cons_of_neg hpa]
        constructor
        · intro h
          exact absurd h (by simp)
        · intro hdue
          exfalso
          cases j with
          | zero => exact hpa (by simpa using hdue)
          | succ n =>
              have hn : n < t.length := by simpa using hj
              have hmem : t.get ⟨n, hn⟩ ∈ t := List.get_mem t n hn
              have hle : a.time ≤ (t.get ⟨n, hn⟩).time := ha _ hmem
              have hQ : (((t.get ⟨n, hn⟩).time : Int) : ℚ) ≤ T := by
                simpa [dueAt, List.get_cons_succ] using hdue
              refine hpa ?_
              simp only [dueAt, decide_eq_true_eq]
              calc ((a.time : Int) : ℚ) ≤ (((t.get ⟨n, hn⟩).time : Int) : ℚ) :=
                    by exact_mod_cast hle
                _ ≤ T := hQ

/-- Error-free runs consume, after `k+1` days, exactly the prefixes of
both queues that are due at the day-`k` boundary clock. -/
theorem runDays_consumes (P : SolverParams)
    (E1all E2all : List ScheduledEvent) (st0 : DayState)
    (hi1 : st0.E1_index = 0) (hi2 : st0.E2_index = 0)
    (hnd : st0.next_day = ((⌊st0.tt⌋ : Int) : ℚ) + 1) :
    ∀ k, (runDays P E1all E2all (k+1) st0).errcode = 0 →
      (runDays P E1all E2all (k+1) st0).E1_index
        = (E1all.takeWhile (dueAt (boundaryClock st0.tt k))).length ∧
      (runDays P E1all E2all (k+1) st0).E2_index
        = (E2all.takeWhile (dueAt (boundaryClock st0.tt k))).length := by
  intro k
  induction k with
  | zero =>
      intro h
      obtain ⟨h0, hE1, hE2⟩ := dayStep_spec P E1all E2all 0 st0 h
      constructor
      · show (dayStep P E1all E2all 0 st0).E1_index = _
        rw [hE1, hi1]
        simp [boundaryClock]
      · show (dayStep P E1all E2all 0 st0).E2_index = _
        rw [hE2, hi2]
        simp [boundaryClock]
  | succ k ih =>
      intro h
      have hprev : (runDays P E1all E2all (k+1) st0).errcode = 0 :=
        (dayStep_spec P E1all E2all (k+1) _ h).1
      obtain ⟨ihE1, ihE2⟩ := ih hprev
      obtain ⟨h0, hE1, hE2⟩ := dayStep_spec P E1all E2all (k+1) _ h
      have hclock := (runDays_clock P E1all E2all st0 hnd (k+1)).1
      constructor
      · show (dayStep P E1all E2all (k+1)
            (runDays P E1all E2all (k+1) st0)).E1_index = _
        rw [hE1, ihE1, hclock]
        exact takeWhile_drop_takeWhile _ _
          (fun a hpa => dueAt_mono _ _ (boundaryClock_mono st0.tt k) a hpa)
          E1all
      · show (dayStep P E1all E2all (k+1)
            (runDays P E1all E2all (k+1) st0)).E2_index = _
        rw [hE2, ihE2, hclock]
        exact takeWhile_drop_takeWhile _ _
          (fun a hpa => dueAt_mono _ _ (boundaryClock_mono st0.tt k) a hpa)
          E2all

/-- C6: in an error-free run, a scheduled event with time `T` is applied
exactly during the day iteration whose event phases observe the first
boundary clock value `>= T`: after `k+1` days the consumed E1 and E2
prefixes are precisely the events due at the day-`k` boundary, and (for
sorted queues) event `j` has been applied iff its time has been reached.
Within one `dayStep` the event phases sit, by construction, after the
SSA phase that advanced every node to the day boundary and before the
post-step phase of the same iteration. -/
theorem scheduled_events_fire_at_boundary (P : SolverParams)
    (E1all E2all : List ScheduledEvent) (st0 : DayState) (k : Nat)
    (hs1 : E1all.Pairwise (fun a b => a.time ≤ b.time))
    (hs2 : E2all.Pairwise (fun a b => a.time ≤ b.time))
    (hi1 : st0.E1_index = 0) (hi2 : st0.E2_index = 0)
    (hnd : st0.next_day = ((⌊st0.tt⌋ : Int) : ℚ) + 1)
    (hclean : (runDays P E1all E2all (k+1) st0).errcode = 0) :
    ((runDays P E1all E2all (k+1) st0).E1_index
      = (E1all.takeWhile (dueAt (boundaryClock st0.tt k))).length) ∧
    ((runDays P E1all E2all (k+1) st0).E2_index
      = (E2all.takeWhile (dueAt (boundaryClock st0.tt k))).length) ∧
    (∀ j (hj : j < E1all.length),
      (j < (runDays P E1all E2all (k+1) st0).E1_index ↔
        (((E1all.get ⟨j, hj⟩).time : Int) : ℚ) ≤ boundaryClock st0.tt k)) ∧
    (∀ j (hj : j < E2all.length),
      (j < (runDays P E1all E2all (k+1) st0).E2_index ↔
        (((E2all.get ⟨j, hj⟩).time : Int) : ℚ) ≤ boundaryClock st0.tt k)) := by
  obtain ⟨hc1, hc2⟩ := runDays_consumes P E1all E2all st0 hi1 hi2 hnd k hclean
  refine ⟨hc1, hc2, ?_, ?_⟩
  · intro j hj
    rw [hc1, takeWhile_due_iff E1all hs1 (boundaryClock st0.tt k) j hj]
    simp [dueAt]
  · intro j hj
    rw [hc2, takeWhile_due_iff E2all hs2 (boundaryClock st0.tt k) j hj]
    simp [dueAt]

/-- A minimal solver configuration for the C6 witness: no nodes, no
transitions, one ENTER event at time 0 with an empty select column. -/
def witnessParams : SolverParams where
  Nn := 0
  Nc := 1
  Nt := 0
  Nd := 0
  tlen := 0
  tspan := fun _ => 0
  irS := fun _ => 0
  jcS := fun _ => 0
  prS := fun _ => 0
  irG := fun _ => 0
  jcG := fun _ => 0
  irE := fun _ => 0
  jcE := fun _ => 0
  Nmat := fun _ => 0
  trFun := fun _ _ _ _ _ => 0
  ptsFun := fun _ v _ _ _ => (v, 0)
  ssaFuel := 0
  texp := fun _ _ _ => 1
  rnd := fun _ _ _ => 1/2
  hypE1 := fun _ _ _ _ => 0
  unifE1 := fun _ _ => 1/2
  hypE2 := fun _ _ _ _ => 0
  unifE2 := fun _ _ => 1/2

def witnessState : DayState where
  uu := fun _ => 0
  v := fun _ => 0
  v_new := fun _ => 0
  t_rate := fun _ => 0
  sum_t_rate := fun _ => 0
  t_time := fun _ => 0
  update_node := fun _ => 0
  E1_index := 0
  E2_index := 0
  tt := 0
  next_day := 1
  errcode := 0
  U_it := 0
  V_it := 0
  Uout := []
  Vout := []

def witnessE1 : List ScheduledEvent :=
  [⟨ENTER_EVENT, 0, 0, 0, 0, 0, 0, -1⟩]

/-- Witness for C6: after the first day the single time-0 ENTER event has
been consumed (it is the whole due prefix at the day-0 boundary). -/
theorem scheduled_events_fire_at_boundary_witness :
    (runDays witnessParams witnessE1 [] 1 witnessState).E1_index
      = (witnessE1.takeWhile
          (dueAt (boundaryClock witnessState.tt 0))).length :=
  (scheduled_events_fire_at_boundary witnessParams witnessE1 [] witnessState
    0
    (by simp [witnessE1])
    (by simp)
    rfl rfl
    (by norm_num [witnessState])
    (by norm_num [runDays, dayStep, ssaPhase, e1Phase, e2Phase,
      postStepPhase, processE1Events, processE1Step, processE2Events,
      outputLoop, witnessParams, witnessState, witnessE1])).1

end SimInf
